import Mathlib

/-!
Verification development for the plaud-tm transcript tool core.

The definitions below are a shallow embedding of the TypeScript sources:
`transcript.ts` (time/date primitives and the transcript adjuster) and
`merge.ts` (filename sort keys, output-path inference and the merge
orchestrator).  JavaScript strings are modelled as `List Char`, JavaScript
numbers on the non-negative integer values that occur here as `Nat`
(comparator results, which can be negative, as `Int`).  Filesystem state is
modelled as an association list from paths to file contents, and glob
expansion — an external collaborator — as an explicit function parameter.
-/

set_option maxHeartbeats 1000000

/-- Paths and file bodies are JavaScript strings, modelled as lists of characters. -/
abbrev JsStr := List Char

/-! ## Time and date value types (transcript.ts) -/

/-- Time value `{hours, minutes, seconds}` from transcript.ts. -/
structure Time where
  hours : Nat
  minutes : Nat
  seconds : Nat
deriving DecidableEq

/-- Date value `{year, month, day}` from transcript.ts. -/
structure DateOnly where
  year : Nat
  month : Nat
  day : Nat
deriving DecidableEq

/-- Combined date and time from transcript.ts. -/
structure DateTime where
  year : Nat
  month : Nat
  day : Nat
  hours : Nat
  minutes : Nat
  seconds : Nat
deriving DecidableEq

/-! ## Character and digit helpers

The regexes `\d`, `\d{2}` … of the source are embedded via an explicit
digit-character predicate ( `\d` matches exactly the characters 0-9 ). -/

/-- Character class of the regex `\d`: exactly the ten ASCII digits. -/
def isDigit (c : Char) : Prop :=
  c ∈ ['0', '1', '2', '3', '4', '5', '6', '7', '8', '9']

instance (c : Char) : Decidable (isDigit c) := by
  unfold isDigit; infer_instance

/-- Every character of the list is an ASCII digit (regex `^\d{n}$` together with
a length check). -/
def allDigits (s : JsStr) : Prop := ∀ c ∈ s, isDigit c

instance (s : JsStr) : Decidable (allDigits s) := by
  unfold allDigits; infer_instance

/-- Numeric value of a digit character. -/
def digitVal (c : Char) : Nat := c.toNat - 48

/-- Digit character for a value 0-9 (character code 48 + value). -/
def digitToChar (n : Nat) : Char := Char.ofNat (48 + n)

/-- Decimal digit list of a natural number, fuelled auxiliary
(the embedding of JavaScript `String(n)` for non-negative integers). -/
def natDigitsAux : Nat → Nat → JsStr
  | _, 0 => []
  | n, fuel + 1 =>
    if n < 10 then [digitToChar n]
    else natDigitsAux (n / 10) fuel ++ [digitToChar (n % 10)]

/-- Decimal representation of a natural number, the embedding of `String(n)`. -/
def natDigits (n : Nat) : JsStr := natDigitsAux n (n + 1)

/-- JavaScript `String(n).padStart(2, '0')`. -/
def padStart2 (s : JsStr) : JsStr :=
  match s with
  | [] => ['0', '0']
  | [c] => ['0', c]
  | s => s

/-- Two-character zero-padded decimal of a number: `String(n).padStart(2, '0')`. -/
def pad2 (n : Nat) : JsStr := padStart2 (natDigits n)

/-- Parse a run of decimal digit characters as a number (`parseInt(s, 10)` on an
all-digit string, leading zeros allowed). -/
def digitsToNat (s : JsStr) : Nat := s.foldl (fun acc c => 10 * acc + digitVal c) 0

/-! ## Time parsing and formatting (transcript.ts) -/

/-- Embeds `parseTime` of transcript.ts: `TIME_REGEX = /^(\d{2}):(\d{2}):(\d{2})$/`
followed by `parseInt` on the groups and the range checks
`hours > 23 || minutes > 59 || seconds > 59`. -/
def parseTime (value : JsStr) : Option Time :=
  match value with
  | [h1, h2, c1, m1, m2, c2, s1, s2] =>
    if isDigit h1 ∧ isDigit h2 ∧ c1 = ':' ∧ isDigit m1 ∧ isDigit m2 ∧ c2 = ':'
        ∧ isDigit s1 ∧ isDigit s2 then
      let hours := 10 * digitVal h1 + digitVal h2
      let minutes := 10 * digitVal m1 + digitVal m2
      let seconds := 10 * digitVal s1 + digitVal s2
      if hours > 23 ∨ minutes > 59 ∨ seconds > 59 then none
      else some ⟨hours, minutes, seconds⟩
    else none
  | _ => none

/-- Embeds `formatTime` of transcript.ts: `HH:MM:SS` with two-digit zero padding. -/
def formatTime (t : Time) : JsStr :=
  pad2 t.hours ++ ':' :: pad2 t.minutes ++ ':' :: pad2 t.seconds

/-- Embeds `formatDateDashed`: `YYYY-MM-DD` (the year is printed unpadded). -/
def formatDateDashed (d : DateOnly) : JsStr :=
  natDigits d.year ++ '-' :: pad2 d.month ++ '-' :: pad2 d.day

/-- Embeds `timeToSeconds`: seconds from midnight. -/
def timeToSeconds (t : Time) : Nat := t.hours * 3600 + t.minutes * 60 + t.seconds

/-- Embeds `secondsToTimeWithOverflow`: `daysOverflow = floor(total / 86400)` and
the remainder mapped back to hours / minutes / seconds. -/
def secondsToTimeWithOverflow (totalSeconds : Nat) : Time × Nat :=
  let daysOverflow := totalSeconds / 86400
  let remainingSeconds := totalSeconds % 86400
  (⟨remainingSeconds / 3600, remainingSeconds % 3600 / 60, remainingSeconds % 60⟩,
    daysOverflow)

/-! ## Calendar-day arithmetic

`addDays` in transcript.ts is implemented with the JavaScript `Date` object
(`new Date(y, m-1, d)`, `setDate`, `getFullYear` …), which for the dates used
here is proleptic-Gregorian day arithmetic.  It is modelled by the standard
civil-from-days / days-from-civil conversion. -/

/-- Day number of a civil (Gregorian) date, days since 1970-01-01. -/
def daysFromCivil (y m d : Int) : Int :=
  let y' := if m ≤ 2 then y - 1 else y
  let era := y' / 400
  let yoe := y' - era * 400
  let mp := (m + 9) % 12
  let doy := (153 * mp + 2) / 5 + d - 1
  let doe := yoe * 365 + yoe / 4 - yoe / 100 + doy
  era * 146097 + doe - 719468

/-- Civil (Gregorian) date of a day number (days since 1970-01-01). -/
def civilFromDays (z0 : Int) : DateOnly :=
  let z := z0 + 719468
  let era := z / 146097
  let doe := z - era * 146097
  let yoe := (doe - doe / 1460 + doe / 36524 - doe / 146096) / 365
  let doy := doe - (365 * yoe + yoe / 4 - yoe / 100)
  let mp := (5 * doy + 2) / 153
  let d := doy - (153 * mp + 2) / 5 + 1
  let m := if mp < 10 then mp + 3 else mp - 9
  let y := yoe + era * 400 + (if m ≤ 2 then 1 else 0)
  ⟨y.toNat, m.toNat, d.toNat⟩

/-- Embeds `addDays` of transcript.ts: calendar-correct addition of days
(`new Date(year, month-1, day)` followed by `setDate(getDate() + days)`).
The `Date` constructor normalises the day field linearly, so the date is
mapped to its day number with the day-of-month added as an offset. -/
def addDays (date : DateOnly) (days : Nat) : DateOnly :=
  civilFromDays (daysFromCivil date.year date.month 1 + (date.day - 1 : Int) + days)

/-- Embeds `createDateTime`. -/
def createDateTime (date : DateOnly) (time : Time) : DateTime :=
  ⟨date.year, date.month, date.day, time.hours, time.minutes, time.seconds⟩

/-- Embeds `compareDateTime`: lexicographic field differences. -/
def compareDateTime (a b : DateTime) : Int :=
  if a.year ≠ b.year then (a.year : Int) - b.year
  else if a.month ≠ b.month then (a.month : Int) - b.month
  else if a.day ≠ b.day then (a.day : Int) - b.day
  else if a.hours ≠ b.hours then (a.hours : Int) - b.hours
  else if a.minutes ≠ b.minutes then (a.minutes : Int) - b.minutes
  else (a.seconds : Int) - b.seconds

/-! ## The transcript adjuster (transcript.ts) -/

/-- Result record of a transcript adjustment. -/
structure TranscriptUpdate where
  body : JsStr
  firstTimestamp : DateTime
  lastTimestamp : DateTime
  hasOutOfOrderTimestamps : Bool
deriving DecidableEq

/-- Error raised by the transcript adjuster. -/
inductive TranscriptError where
  | noTimestamps
deriving DecidableEq

/-- Embeds `parseTimestampLine`: a line of at least 8 characters whose first 8
characters parse as a valid `HH:MM:SS`; the remainder of the line is kept. -/
def parseTimestampLine (line : JsStr) : Option (Time × JsStr) :=
  if line.length < 8 then none
  else
    match parseTime (line.take 8) with
    | none => none
    | some t => some (t, line.drop 8)

/-- Embeds `applyOffset`: base seconds plus relative seconds, converted back
with day overflow; the date advances only when the overflow is positive. -/
def applyOffset (start : Time) (effectiveDate : DateOnly) (relative : Time) : DateTime :=
  let baseSeconds := timeToSeconds start
  let relativeSeconds := timeToSeconds relative
  let totalSeconds := baseSeconds + relativeSeconds
  let r := secondsToTimeWithOverflow totalSeconds
  let adjustedDate := if 0 < r.2 then addDays effectiveDate r.2 else effectiveDate
  createDateTime adjustedDate r.1

/-- JavaScript `split('\n')` (and `split(sep)` for a one-character separator). -/
def splitOnChar (sep : Char) : JsStr → List JsStr
  | [] => [[]]
  | c :: rest =>
    if c = sep then [] :: splitOnChar sep rest
    else
      match splitOnChar sep rest with
      | [] => [[c]]
      | l :: ls => (c :: l) :: ls

/-- Splitting a string into its lines, `contents.split('\n')`. -/
def splitOnNl (s : JsStr) : List JsStr := splitOnChar '\n' s

/-- JavaScript `join('\n')`. -/
def joinNl : List JsStr → JsStr
  | [] => []
  | [l] => l
  | l :: ls => l ++ '\n' :: joinNl ls

/-- JavaScript `s.endsWith('\n')`. -/
def endsWithNl (s : JsStr) : Prop := s.getLast? = some '\n'

instance (s : JsStr) : Decidable (endsWithNl s) := by
  unfold endsWithNl; infer_instance

/-- The line list the adjuster loops over: `contents.split('\n')` with the
empty final element popped when the text has a trailing newline. -/
def effectiveLines (contents : JsStr) : List JsStr :=
  let lines0 := splitOnNl contents
  if endsWithNl contents ∧ lines0.getLast? = some [] then lines0.dropLast else lines0

/-- Loop state of the adjuster: accumulated output lines, first / last /
previous adjusted timestamps and the out-of-order flag. -/
structure AdjSt where
  lines : List JsStr
  first : Option DateTime
  last : Option DateTime
  prev : Option DateTime
  ooo : Bool
deriving DecidableEq

/-- Text a single line is turned into: adjusted timestamp plus the preserved
remainder when the line parses, the line itself otherwise. -/
def procLine (baseTime : Time) (effectiveDate : DateOnly) (line : JsStr) : JsStr :=
  match parseTimestampLine line with
  | none => line
  | some pr =>
    let adjusted := applyOffset baseTime effectiveDate pr.1
    formatTime ⟨adjusted.hours, adjusted.minutes, adjusted.seconds⟩ ++ pr.2

/-- One iteration of the adjuster's line loop. -/
def adjStep (baseTime : Time) (effectiveDate : DateOnly) (st : AdjSt) (line : JsStr) : AdjSt :=
  match parseTimestampLine line with
  | none => { st with lines := st.lines ++ [line] }
  | some pr =>
    let adjusted := applyOffset baseTime effectiveDate pr.1
    { lines := st.lines ++ [formatTime ⟨adjusted.hours, adjusted.minutes, adjusted.seconds⟩ ++ pr.2]
      first := match st.first with | none => some adjusted | some f => some f
      last := some adjusted
      prev := some adjusted
      ooo := st.ooo || (match st.prev with
        | some p => decide (compareDateTime adjusted p < 0)
        | none => false) }

/-- Final state of the adjuster's line loop over the effective lines. -/
def finalSt (baseTime : Time) (effectiveDate : DateOnly) (contents : JsStr) : AdjSt :=
  (effectiveLines contents).foldl (adjStep baseTime effectiveDate) ⟨[], none, none, none, false⟩

/-- Embeds `adjustTranscript` of transcript.ts: split into lines, pop the
trailing empty line, run the line loop, fail when no timestamp was ever
parsed, join with `\n` and restore the trailing newline. -/
def adjustTranscript (contents : JsStr) (baseTime : Time) (effectiveDate : DateOnly) :
    Except TranscriptError TranscriptUpdate :=
  match (finalSt baseTime effectiveDate contents).first with
  | none => .error .noTimestamps
  | some f =>
    .ok ⟨(if endsWithNl contents
          then joinNl (finalSt baseTime effectiveDate contents).lines ++ ['\n']
          else joinNl (finalSt baseTime effectiveDate contents).lines),
      f, ((finalSt baseTime effectiveDate contents).last).getD f,
      (finalSt baseTime effectiveDate contents).ooo⟩

/-- Adjusted datetimes of the lines of a line list that parse, in order. -/
def seqOf (baseTime : Time) (effectiveDate : DateOnly) (lines : List JsStr) : List DateTime :=
  lines.filterMap fun l =>
    (parseTimestampLine l).map fun pr => applyOffset baseTime effectiveDate pr.1

/-- Sequence of adjusted datetimes of the lines that parse, in file order. -/
def adjustedSeq (baseTime : Time) (effectiveDate : DateOnly) (contents : JsStr) : List DateTime :=
  seqOf baseTime effectiveDate (effectiveLines contents)

/-- First-preferring choice of two optional values (the assignment pattern
`if x == null then x = v` of the adjuster loop). -/
def oFirst : Option DateTime → Option DateTime → Option DateTime
  | some x, _ => some x
  | none, b => b

/-! ## Path helpers (Node `path` module, POSIX behaviour)

The merge code uses `path.dirname`, `path.basename`, `path.join` and
`path.sep` (`'/'`).  `dirname` and `basename` follow Node's POSIX
algorithm: trailing separators are skipped, then the portion before / after
the last separator is returned.  `pathJoin` models `path.join(dir, name)`
for the argument shapes produced here (a `dirname` result and a plain file
name, no `..` or embedded `.` segments). -/

/-- Node `path.dirname` (POSIX). -/
def dirname (p : JsStr) : JsStr :=
  if p = [] then ['.']
  else
    let hasRoot := p.head? = some '/'
    let r2 := (p.reverse.dropWhile (fun c => c == '/')).dropWhile (fun c => c != '/')
    match r2 with
    | [] => if hasRoot then ['/'] else ['.']
    | _ :: _ =>
      let e := r2.length - 1
      if e = 0 then ['/']
      else if hasRoot ∧ e = 1 then ['/', '/']
      else p.take e

/-- Node `path.basename` (POSIX, no extension argument). -/
def pathBasename (p : JsStr) : JsStr :=
  ((p.reverse.dropWhile (fun c => c == '/')).takeWhile (fun c => c != '/')).reverse

/-- JavaScript `name.replace(/\.[^.]+$/, '')`: drop a final dot followed by at
least one non-dot character, if present. -/
def stripExt (name : JsStr) : JsStr :=
  let r := name.reverse
  let suffix := r.takeWhile (fun c => c != '.')
  if suffix.length = 0 then name
  else
    match r.drop suffix.length with
    | '.' :: rest => rest.reverse
    | _ => name

/-- Node `path.join(dir, name)` for the shapes used by the merge code. -/
def pathJoin (a b : JsStr) : JsStr :=
  if a = [] then b
  else if a = ['.'] then b
  else if a = ['/'] then '/' :: b
  else a ++ '/' :: b

/-! ## Filename sort keys (merge.ts) -/

/-- Sort key of a transcript file: optional date plus start-time fields. -/
structure FileSortKey where
  date : Option DateOnly
  startHours : Nat
  startMinutes : Nat
  startSeconds : Nat
deriving DecidableEq

/-- Shared tail of `compareSortKeys`: comparison by the start-time fields. -/
def compareStartTimes (a b : FileSortKey) : Int :=
  if a.startHours ≠ b.startHours then (a.startHours : Int) - b.startHours
  else if a.startMinutes ≠ b.startMinutes then (a.startMinutes : Int) - b.startMinutes
  else (a.startSeconds : Int) - b.startSeconds

/-- Embeds `compareSortKeys` of merge.ts: field-difference comparison of the
dates when both are present, `1` when only `a` has a date ("files with dates
come after files without"), `-1` when only `b` has one, and otherwise the
start-time comparison. -/
def compareSortKeys (a b : FileSortKey) : Int :=
  match a.date, b.date with
  | some ad, some bd =>
    if ad.year ≠ bd.year then (ad.year : Int) - bd.year
    else if ad.month ≠ bd.month then (ad.month : Int) - bd.month
    else if ad.day ≠ bd.day then (ad.day : Int) - bd.day
    else compareStartTimes a b
  | some _, none => 1
  | none, some _ => -1
  | none, none => compareStartTimes a b

/-- Embeds `looksLikeFlatFormat`: three underscore-separated parts of lengths
8 / 6 / 6, all digits. -/
def looksLikeFlatFormat (filename : JsStr) : Prop :=
  let parts := splitOnChar '_' filename
  parts.length = 3
    ∧ ((parts.getD 0 []).length = 8 ∧ allDigits (parts.getD 0 []))
    ∧ ((parts.getD 1 []).length = 6 ∧ allDigits (parts.getD 1 []))
    ∧ ((parts.getD 2 []).length = 6 ∧ allDigits (parts.getD 2 []))

instance (filename : JsStr) : Decidable (looksLikeFlatFormat filename) := by
  unfold looksLikeFlatFormat; infer_instance

/-- Embeds `looksLikeNestedFormat`: two hyphen-separated parts of length 6,
all digits. -/
def looksLikeNestedFormat (filename : JsStr) : Prop :=
  let parts := splitOnChar '-' filename
  parts.length = 2
    ∧ ((parts.getD 0 []).length = 6 ∧ allDigits (parts.getD 0 []))
    ∧ ((parts.getD 1 []).length = 6 ∧ allDigits (parts.getD 1 []))

instance (filename : JsStr) : Decidable (looksLikeNestedFormat filename) := by
  unfold looksLikeNestedFormat; infer_instance

/-- Embeds `parseTimeDigits` of merge.ts: six digits split 2/2/2 with range
checks on hours / minutes / seconds. -/
def parseTimeDigits (value : JsStr) : Option Time :=
  if value.length = 6 ∧ allDigits value then
    let hours := digitsToNat (value.take 2)
    let minutes := digitsToNat ((value.drop 2).take 2)
    let seconds := digitsToNat ((value.drop 4).take 2)
    if hours > 23 ∨ minutes > 59 ∨ seconds > 59 then none
    else some ⟨hours, minutes, seconds⟩
  else none

/-- Embeds `DATE_COMPACT_REGEX = /^(\d{4})(\d{2})(\d{2})$/` with `parseInt`
on the groups (no range validation at this layer). -/
def parseDateCompact (s : JsStr) : Option DateOnly :=
  if s.length = 8 ∧ allDigits s then
    some ⟨digitsToNat (s.take 4), digitsToNat ((s.drop 4).take 2),
      digitsToNat ((s.drop 6).take 2)⟩
  else none

/-- Embeds the regex `/^(\d{4})-(\d{2})-(\d{2})$/` used on the day directory
name (no range validation in this branch). -/
def parseDashedDate (s : JsStr) : Option DateOnly :=
  match s with
  | [y1, y2, y3, y4, h1, m1, m2, h2, d1, d2] =>
    if isDigit y1 ∧ isDigit y2 ∧ isDigit y3 ∧ isDigit y4 ∧ h1 = '-'
        ∧ isDigit m1 ∧ isDigit m2 ∧ h2 = '-' ∧ isDigit d1 ∧ isDigit d2 then
      some ⟨digitsToNat [y1, y2, y3, y4], digitsToNat [m1, m2], digitsToNat [d1, d2]⟩
    else none
  | _ => none

/-- Embeds `extractDateFromPath` of merge.ts: the parent directory as
`YYYY-MM-DD`, else the last three directory segments as `YYYY/MM/DD` with
month 1-12 and day 1-31. -/
def extractDateFromPath (filepath : JsStr) : Option DateOnly :=
  let dir := dirname filepath
  let dayDir := pathBasename dir
  match parseDashedDate dayDir with
  | some d => some d
  | none =>
    let parts := splitOnChar '/' dir
    if parts.length ≥ 3 then
      let dayPart := parts.getD (parts.length - 1) []
      let monthPart := parts.getD (parts.length - 2) []
      let yearPart := parts.getD (parts.length - 3) []
      if (yearPart.length = 4 ∧ allDigits yearPart)
          ∧ (monthPart.length = 2 ∧ allDigits monthPart)
          ∧ (dayPart.length = 2 ∧ allDigits dayPart) then
        let year := digitsToNat yearPart
        let month := digitsToNat monthPart
        let day := digitsToNat dayPart
        if 1 ≤ month ∧ month ≤ 12 ∧ 1 ≤ day ∧ day ≤ 31 then some ⟨year, month, day⟩
        else none
      else none
    else none

/-- Errors of the merge orchestrator (context fields that only carry exception
messages are dropped). -/
inductive MergeError where
  | noMatches (pattern : JsStr)
  | unrecognizedFilename (filepath : JsStr)
  | mixedDates
  | undeterminedDate
  | fileTooLarge (filepath : JsStr) (size max : Nat)
  | ioError
deriving DecidableEq

/-- Embeds `parseNested`: start time from the first hyphen part, date recovered
from the directory path (absent date is not an error). -/
def parseNested (filepath filename : JsStr) : Except MergeError FileSortKey :=
  let parts := splitOnChar '-' filename
  match parseTimeDigits (parts.getD 0 []) with
  | none => .error (.unrecognizedFilename filepath)
  | some startTime =>
    let date := extractDateFromPath filepath
    .ok ⟨date, startTime.hours, startTime.minutes, startTime.seconds⟩

/-- Embeds `parseFlat`: date from the first underscore part, start time from
the second. -/
def parseFlat (filepath filename : JsStr) : Except MergeError FileSortKey :=
  let parts := splitOnChar '_' filename
  match parseDateCompact (parts.getD 0 []) with
  | none => .error (.unrecognizedFilename filepath)
  | some date =>
    match parseTimeDigits (parts.getD 1 []) with
    | none => .error (.unrecognizedFilename filepath)
    | some startTime => .ok ⟨some date, startTime.hours, startTime.minutes, startTime.seconds⟩

/-- Embeds `getSortKey`: strip directory and extension, try the flat shape
first, then the nested shape, otherwise fail naming the path. -/
def getSortKey (filepath : JsStr) : Except MergeError FileSortKey :=
  let base := pathBasename filepath
  let filename := stripExt base
  if looksLikeFlatFormat filename then parseFlat filepath filename
  else if looksLikeNestedFormat filename then parseNested filepath filename
  else .error (.unrecognizedFilename filepath)

/-! ## Output-path inference (merge.ts) -/

/-- Day-directory information of a nested file: its parent directory and the
date derived from the path. -/
structure NestedDirInfo where
  dir : JsStr
  date : DateOnly
deriving DecidableEq

/-- Embeds `extractNestedDayDirectory`. -/
def extractNestedDayDirectory (filepath : JsStr) : Option NestedDirInfo :=
  match extractDateFromPath filepath with
  | none => none
  | some date => some ⟨dirname filepath, date⟩

/-- Loop of `detectCommonNestedDirectory`, carrying the current candidate. -/
def detectGo (candidate : Option NestedDirInfo) : List JsStr → Option NestedDirInfo
  | [] => candidate
  | p :: rest =>
    match extractNestedDayDirectory p with
    | none => none
    | some info =>
      match candidate with
      | none => detectGo (some info) rest
      | some c =>
        if c.dir ≠ info.dir ∨ c.date.year ≠ info.date.year
            ∨ c.date.month ≠ info.date.month ∨ c.date.day ≠ info.date.day then none
        else detectGo (some c) rest

/-- Embeds `detectCommonNestedDirectory`: all files must share the same day
directory and directory-derived date. -/
def detectCommonNestedDirectory (paths : List JsStr) : Option NestedDirInfo :=
  detectGo none paths

/-- Loop of the same-date check in `determineOutputPath`: the first dated key
fixes the date, any later dated key with a different date raises MixedDates. -/
def pickCommonDate : Option DateOnly → List (JsStr × FileSortKey) →
    Except MergeError (Option DateOnly)
  | sel, [] => .ok sel
  | sel, (_, k) :: rest =>
    match k.date with
    | none => pickCommonDate sel rest
    | some d =>
      match sel with
      | none => pickCommonDate (some d) rest
      | some s =>
        if s.year ≠ d.year ∨ s.month ≠ d.month ∨ s.day ≠ d.day then .error .mixedDates
        else pickCommonDate (some s) rest

/-- File extension appended to inferred output names. -/
def txtExt : JsStr := ('.' :: 't' :: 'x' :: 't' :: [])

/-- Directory of the first file in sorted order, `'.'` when there is none. -/
def firstDirOf (ordered : List JsStr) : JsStr :=
  match ordered with
  | [] => ['.']
  | p :: _ => dirname p

/-- Embeds `determineOutputPath` of merge.ts: explicit output, else common
nested directory, else common date of the dated keys, else failure. -/
def determineOutputPath (ordered : List JsStr) (descriptors : List (JsStr × FileSortKey))
    (request : Option JsStr) : Except MergeError JsStr :=
  match request with
  | some o => .ok o
  | none =>
    match detectCommonNestedDirectory ordered with
    | some common => .ok (pathJoin common.dir (formatDateDashed common.date ++ txtExt))
    | none =>
      match pickCommonDate none descriptors with
      | .error e => .error e
      | .ok (some selectedDate) =>
        .ok (pathJoin (firstDirOf ordered) (formatDateDashed selectedDate ++ txtExt))
      | .ok none => .error .undeterminedDate

/-! ## Filesystem model and the merge orchestrator (merge.ts)

The filesystem is an association list from paths to file contents; `stat`
(size), `readFileSync`, `atomicWrite` and `unlinkSync` act on it.  Glob
expansion is an explicit function parameter.  `fs.realpathSync` /
`path.resolve` canonicalisation is modelled as the identity: the model's
paths are taken to be already canonical (no symlinks, one spelling per
file), so canonical equality of paths is path equality. -/

/-- Filesystem state: paths mapped to file contents. -/
abbrev FS := List (JsStr × JsStr)

/-- Content of a file, `none` when the path does not exist. -/
def fsLookup (fs : FS) (p : JsStr) : Option JsStr :=
  match fs with
  | [] => none
  | (q, v) :: rest => if q = p then some v else fsLookup rest p

/-- Embeds `fs.existsSync`. -/
def fsExists (fs : FS) (p : JsStr) : Prop := (fsLookup fs p).isSome = true

instance (fs : FS) (p : JsStr) : Decidable (fsExists fs p) := by
  unfold fsExists; infer_instance

/-- Embeds the atomic write: create or replace the file at the path. -/
def fsWrite (fs : FS) (p v : JsStr) : FS :=
  match fs with
  | [] => [(p, v)]
  | (q, w) :: rest => if q = p then (q, v) :: rest else (q, w) :: fsWrite rest p v

/-- Embeds `fs.unlinkSync` (the removal itself; existence is checked by callers). -/
def fsDelete (fs : FS) (p : JsStr) : FS :=
  match fs with
  | [] => []
  | (q, w) :: rest => if q = p then fsDelete rest p else (q, w) :: fsDelete rest p

/-- Modelled canonicalisation (`realpathSync` on existing paths, `path.resolve`
otherwise): the identity on the model's already-canonical paths. -/
def canonical (_fs : FS) (p : JsStr) : JsStr := p

/-- Maximum file size accepted by the merge (10 MiB). -/
def MAX_FILE_SIZE : Nat := 10 * 1024 * 1024

/-- Request parameters of the merge command. -/
structure MergeRequest where
  patterns : List JsStr
  output : Option JsStr
  noDelete : Bool
deriving DecidableEq

/-- Result of the merge operation. -/
structure MergeOutcome where
  files : List JsStr
  outputPath : JsStr
deriving DecidableEq

/-- Pattern expansion loop of `executeMerge`: each pattern in order, failing
with `NoMatches` on the first pattern with no matches, concatenating all
match lists. -/
def expandPatterns (expand : JsStr → List JsStr) : List JsStr → Except MergeError (List JsStr)
  | [] => .ok []
  | pat :: rest =>
    let ms := expand pat
    if ms.length = 0 then .error (.noMatches pat)
    else
      match expandPatterns expand rest with
      | .error e => .error e
      | .ok more => .ok (ms ++ more)

/-- Size-check loop of `executeMerge`: `stat` each collected path (an I/O error
when it does not exist) and fail with `FileTooLarge` above the cap. -/
def checkSizes (fs : FS) : List JsStr → Except MergeError Unit
  | [] => .ok ()
  | p :: rest =>
    match fsLookup fs p with
    | none => .error .ioError
    | some content =>
      if content.length > MAX_FILE_SIZE then
        .error (.fileTooLarge p content.length MAX_FILE_SIZE)
      else checkSizes fs rest

/-- Concatenation loop of `writeMergedFile`: read each file, appending a single
`'\n'` between segments when the accumulated buffer does not already end
with one. -/
def buildMerged (fs : FS) : List JsStr → JsStr → Except MergeError JsStr
  | [], acc => .ok acc
  | p :: rest, acc =>
    match fsLookup fs p with
    | none => .error .ioError
    | some content =>
      let acc1 := acc ++ content
      let acc2 := if rest ≠ [] ∧ ¬ endsWithNl acc1 then acc1 ++ ['\n'] else acc1
      buildMerged fs rest acc2

/-- Embeds `writeMergedFile`: concatenate the sources and atomically write the
result to the output path (directory creation is a no-op in the flat model). -/
def writeMergedFile (fs : FS) (files : List JsStr) (outputPath : JsStr) :
    Except MergeError FS :=
  match buildMerged fs files [] with
  | .error e => .error e
  | .ok merged => .ok (fsWrite fs outputPath merged)

/-- Deletion loop of `deleteSources`: skip any source whose canonical path
equals the output's canonical path, unlink the rest (unlinking a missing
file is an I/O error). -/
def deleteGo (outputCanonical : JsStr) : FS → List JsStr → Except MergeError FS
  | fs, [] => .ok fs
  | fs, p :: rest =>
    if canonical fs p = outputCanonical then deleteGo outputCanonical fs rest
    else if fsExists fs p then deleteGo outputCanonical (fsDelete fs p) rest
    else .error .ioError

/-- Embeds `deleteSources` of merge.ts. -/
def deleteSources (fs : FS) (files : List JsStr) (outputPath : JsStr) :
    Except MergeError FS :=
  deleteGo (canonical fs outputPath) fs files

/-- Stable insertion of an element into a sorted list: placed before the first
element it compares less-or-equal to. -/
def insertSorted (le : α → α → Bool) (x : α) : List α → List α
  | [] => [x]
  | y :: ys => if le x y then x :: y :: ys else y :: insertSorted le x ys

/-- Embeds `Array.prototype.sort` with a consistent comparator: a stable sort
(insertion sort — any stable sort produces the same result). -/
def stableSort (le : α → α → Bool) : List α → List α
  | [] => []
  | x :: xs => insertSorted le x (stableSort le xs)

/-- Tail of the deduplication loop of `executeMerge`, carrying the most
recently kept path. -/
def dedupAux (prev : JsStr) : List JsStr → List JsStr
  | [] => []
  | p :: rest => if p = prev then dedupAux prev rest else p :: dedupAux p rest

/-- Embeds the deduplication loop of `executeMerge`: keep a path unless it
equals the most recently kept one (collapse of consecutive duplicates). -/
def dedupConsecutive : List JsStr → List JsStr
  | [] => []
  | p :: rest => p :: dedupAux p rest

/-- Key-extraction loop of `executeMerge`: `collected.map` building
path/sort-key descriptors, with the first `getSortKey` failure propagating. -/
def extractKeys : List JsStr → Except MergeError (List (JsStr × FileSortKey))
  | [] => .ok []
  | p :: rest =>
    match getSortKey p with
    | .error e => .error e
    | .ok k =>
      match extractKeys rest with
      | .error e => .error e
      | .ok more => .ok ((p, k) :: more)

/-- Embeds `executeMerge` of merge.ts: expansion, size guard, key extraction,
stable sort, consecutive deduplication, output-path resolution, exclusion of
the canonical output path from the sources, merged write, and source
deletion unless `noDelete`.  The pair threads the filesystem state; an error
leaves the state as it was when the error was raised. -/
def executeMerge (expand : JsStr → List JsStr) (request : MergeRequest) (fs : FS) :
    Except MergeError MergeOutcome × FS :=
  match expandPatterns expand request.patterns with
  | .error e => (.error e, fs)
  | .ok collected =>
    match checkSizes fs collected with
    | .error e => (.error e, fs)
    | .ok _ =>
      match extractKeys collected with
      | .error e => (.error e, fs)
      | .ok descriptors =>
        let sorted := stableSort (fun a b => decide (compareSortKeys a.2 b.2 ≤ 0)) descriptors
        let ordered := dedupConsecutive (sorted.map (fun d => d.1))
        match determineOutputPath ordered sorted request.output with
        | .error e => (.error e, fs)
        | .ok outputPath =>
          let outputCanonical := canonical fs outputPath
          let sourcesToMerge := ordered.filter (fun p => decide (canonical fs p ≠ outputCanonical))
          match writeMergedFile fs sourcesToMerge outputPath with
          | .error _ => (.error .ioError, fs)
          | .ok fs1 =>
            if request.noDelete then (.ok ⟨sourcesToMerge, outputPath⟩, fs1)
            else
              match deleteSources fs1 sourcesToMerge outputPath with
              | .error _ => (.error .ioError, fs1)
              | .ok fs2 => (.ok ⟨sourcesToMerge, outputPath⟩, fs2)

/-! ## Spec-side predicates used to state the claims -/

/-- Valid `HH:MM:SS` string in the sense of the spec: exact two-digit fields
with colon punctuation, hours 0-23, minutes and seconds 0-59. -/
def isValidTimeString (s : JsStr) : Prop :=
  match s with
  | [h1, h2, c1, m1, m2, c2, s1, s2] =>
    isDigit h1 ∧ isDigit h2 ∧ c1 = ':' ∧ isDigit m1 ∧ isDigit m2 ∧ c2 = ':'
      ∧ isDigit s1 ∧ isDigit s2
      ∧ 10 * digitVal h1 + digitVal h2 ≤ 23
      ∧ 10 * digitVal m1 + digitVal m2 ≤ 59
      ∧ 10 * digitVal s1 + digitVal s2 ≤ 59
  | _ => False

instance (s : JsStr) : Decidable (isValidTimeString s) := by
  unfold isValidTimeString
  match s with
  | [h1, h2, c1, m1, m2, c2, s1, s2] => infer_instance
  | [] => exact isFalse id
  | [_] => exact isFalse id
  | [_, _] => exact isFalse id
  | [_, _, _] => exact isFalse id
  | [_, _, _, _] => exact isFalse id
  | [_, _, _, _, _] => exact isFalse id
  | [_, _, _, _, _, _] => exact isFalse id
  | [_, _, _, _, _, _, _] => exact isFalse id
  | _ :: _ :: _ :: _ :: _ :: _ :: _ :: _ :: _ :: _ => exact isFalse id

/-- Strict lexicographic order on dates by (year, month, day), as the spec
describes the dated-keys ordering. -/
def dateLexLt (a b : DateOnly) : Prop :=
  a.year < b.year ∨ (a.year = b.year ∧ (a.month < b.month
    ∨ (a.month = b.month ∧ a.day < b.day)))

/-- Strict lexicographic order on start times, as the spec describes the
start-time ordering of sort keys. -/
def startLexLt (a b : FileSortKey) : Prop :=
  a.startHours < b.startHours ∨ (a.startHours = b.startHours
    ∧ (a.startMinutes < b.startMinutes ∨ (a.startMinutes = b.startMinutes
      ∧ a.startSeconds < b.startSeconds)))

/-- Number of `'\n'` characters at the head of a string. -/
def countLeadNl : JsStr → Nat
  | [] => 0
  | c :: rest => if c = '\n' then countLeadNl rest + 1 else 0

/-- Number of `'\n'` characters a string ends with. -/
def trailingNlCount (s : JsStr) : Nat := countLeadNl s.reverse

/-- Some element of the sequence compares strictly less than the element
immediately before it, starting from an optional predecessor. -/
def decreasesFrom : Option DateTime → List DateTime → Bool
  | _, [] => false
  | none, x :: rest => decreasesFrom (some x) rest
  | some p, x :: rest => decide (compareDateTime x p < 0) || decreasesFrom (some x) rest

/-- Some adjacent pair of the sequence is a strict decrease. -/
def hasAdjacentDecrease (l : List DateTime) : Bool := decreasesFrom none l

/-- Whether the pattern is a prefix of the string. -/
def startsWithSeq : JsStr → JsStr → Bool
  | [], _ => true
  | _ :: _, [] => false
  | p :: ps, c :: cs => p == c && startsWithSeq ps cs

/-- Number of positions of the string at which the pattern occurs. -/
def countOccur (pat : JsStr) (s : JsStr) : Nat :=
  match s with
  | [] => 0
  | _ :: rest => (if startsWithSeq pat s then 1 else 0) + countOccur pat rest

deriving instance DecidableEq for Except

instance : Inhabited FileSortKey := ⟨⟨none, 0, 0, 0⟩⟩

instance : Inhabited DateOnly := ⟨⟨0, 0, 0⟩⟩

instance : Inhabited Time := ⟨⟨0, 0, 0⟩⟩

instance : Inhabited DateTime := ⟨⟨0, 0, 0, 0, 0, 0⟩⟩

/-! ## Concrete instances used in the examples -/

/-- Base time 18:01:12 of the spec's worked examples. -/
def sampleBase : Time := ⟨18, 1, 12⟩

/-- Base date 2024-12-25 of the spec's worked examples. -/
def sampleDate : DateOnly := ⟨2024, 12, 25⟩

/-- Early nested segment path of the spec's merge example. -/
def samplePathEarly : JsStr := "2025/01/27/061901-111901.txt".data

/-- Late nested segment path of the spec's merge example. -/
def samplePathLate : JsStr := "2025/01/27/112256-162256.txt".data

/-- Unrecognizable file name alongside a recognizable one. -/
def samplePathNotes : JsStr := "2025/01/27/notes.txt".data

/-- Nested-shape file without a date-shaped directory. -/
def samplePathX : JsStr := "x/112256-162256.txt".data

/-- A second nested-shape file with the same base name in another directory. -/
def samplePathY : JsStr := "y/112256-162256.txt".data

/-- An explicit output path outside the inputs. -/
def sampleOut : JsStr := "out.txt".data

/-- Glob expansion where every pattern is a literal path naming itself. -/
def expandSelf : JsStr → List JsStr := fun p => [p]

/-- The range condition `parseTimeDigits` actually checks on a six-digit
field: hours above 23 or minutes/seconds above 59. -/
def startTimeOutOfRange (value : JsStr) : Prop :=
  digitsToNat (value.take 2) > 23 ∨ digitsToNat ((value.drop 2).take 2) > 59
    ∨ digitsToNat ((value.drop 4).take 2) > 59

instance (value : JsStr) : Decidable (startTimeOutOfRange value) := by
  unfold startTimeOutOfRange; infer_instance

/-- The names `getSortKey` rejects: the extension-stripped base name matches
neither the flat nor the nested digit shape, or it matches one of them but
its START-time field is out of range. The end-time field (`parts[1]` of a
nested name, `parts[2]` of a flat name) is only shape-checked, never
range-checked, so it does not appear here. -/
def unrecognizableName (filepath : JsStr) : Prop :=
  let fn := stripExt (pathBasename filepath)
  (¬ looksLikeFlatFormat fn ∧ ¬ looksLikeNestedFormat fn)
    ∨ (looksLikeFlatFormat fn ∧ startTimeOutOfRange ((splitOnChar '_' fn).getD 1 []))
    ∨ (¬ looksLikeFlatFormat fn ∧ looksLikeNestedFormat fn
        ∧ startTimeOutOfRange ((splitOnChar '-' fn).getD 0 []))

instance (filepath : JsStr) : Decidable (unrecognizableName filepath) := by
  unfold unrecognizableName; infer_instance

/-- Nested-shape file name whose end-time field 999999 is numerically out of
range (hours 99) yet shape-valid. -/
def samplePathBadEnd : JsStr := "2025/01/27/112256-999999.txt".data

/-! ## Lemmas -/
lemma splitOnChar_ne_nil (sep : Char) (s : JsStr) : splitOnChar sep s ≠ [] := by
  induction s with
  | nil => simp [splitOnChar]
  | cons c rest ih =>
    rw [splitOnChar]
    by_cases h : c = sep
    · simp [h]
    · rw [if_neg h]
      rcases hs : splitOnChar sep rest with _ | ⟨l, ls⟩ <;> simp

lemma joinNl_cons (l : JsStr) (ls : List JsStr) (h : ls ≠ []) :
    joinNl (l :: ls) = l ++ '\n' :: joinNl ls := by
  cases ls with
  | nil => exact absurd rfl h
  | cons x xs => rfl

lemma joinNl_splitOnNl (s : JsStr) : joinNl (splitOnNl s) = s := by
  unfold splitOnNl
  induction s with
  | nil => rfl
  | cons c rest ih =>
    rw [splitOnChar]
    by_cases h : c = '\n'
    · subst h
      rw [if_pos rfl, joinNl_cons _ _ (splitOnChar_ne_nil _ _), ih]
      rfl
    · rw [if_neg h]
      rcases hs : splitOnChar '\n' rest with _ | ⟨l, ls⟩
      · exact absurd hs (splitOnChar_ne_nil _ _)
      · rw [hs] at ih
        cases ls with
        | nil =>
          simp only [joinNl] at ih ⊢
          rw [ih]
        | cons y ys =>
          rw [joinNl_cons _ _ (by simp)] at ih
          rw [joinNl_cons _ _ (by simp), List.cons_append, ih]

lemma splitOnChar_append_sep (sep : Char) (s : JsStr) :
    splitOnChar sep (s ++ [sep]) = splitOnChar sep s ++ [[]] := by
  induction s with
  | nil => simp [splitOnChar]
  | cons c rest ih =>
    rw [List.cons_append, splitOnChar, splitOnChar]
    by_cases h : c = sep
    · rw [if_pos h, if_pos h, ih]
      rfl
    · rw [if_neg h, if_neg h, ih]
      rcases hs : splitOnChar sep rest with _ | ⟨l, ls⟩
      · exact absurd hs (splitOnChar_ne_nil _ _)
      · simp

lemma splitOnChar_not_mem (sep : Char) (s : JsStr) : ∀ l ∈ splitOnChar sep s, sep ∉ l := by
  induction s with
  | nil =>
    intro l hl
    simp [splitOnChar] at hl
    subst hl; simp
  | cons c rest ih =>
    intro l hl
    rw [splitOnChar] at hl
    by_cases h : c = sep
    · rw [if_pos h] at hl
      rcases List.mem_cons.1 hl with rfl | hl
      · simp
      · exact ih l hl
    · rw [if_neg h] at hl
      rcases hs : splitOnChar sep rest with _ | ⟨x, xs⟩
      · exact absurd hs (splitOnChar_ne_nil _ _)
      · rw [hs] at hl
        rcases List.mem_cons.1 hl with rfl | hl
        · intro hmem
          rcases List.mem_cons.1 hmem with h' | hmem
          · exact h h'.symm
          · exact ih x (by rw [hs]; exact List.mem_cons_self x xs) hmem
        · exact ih l (by rw [hs]; exact List.mem_cons_of_mem x hl)

lemma endsWithNl_decomp (s : JsStr) (h : endsWithNl s) : s = s.dropLast ++ ['\n'] := by
  unfold endsWithNl at h
  have hne : s ≠ [] := by rintro rfl; simp at h
  have hlast := List.getLast?_eq_getLast s hne
  rw [hlast] at h
  injection h with h
  conv_lhs => rw [← List.dropLast_append_getLast hne]
  rw [h]

lemma effectiveLines_of_endsWith (s : JsStr) (h : endsWithNl s) :
    effectiveLines s = splitOnNl s.dropLast := by
  have hsplit : splitOnNl s = splitOnNl s.dropLast ++ [[]] := by
    conv_lhs => rw [endsWithNl_decomp s h]
    exact splitOnChar_append_sep '\n' s.dropLast
  unfold effectiveLines
  rw [hsplit, if_pos ⟨h, List.getLast?_concat _⟩, List.dropLast_concat]

lemma effectiveLines_of_not_endsWith (s : JsStr) (h : ¬ endsWithNl s) :
    effectiveLines s = splitOnNl s := by
  unfold effectiveLines
  rw [if_neg (by tauto)]

lemma effectiveLines_no_nl (s : JsStr) : ∀ l ∈ effectiveLines s, '\n' ∉ l := by
  intro l hl
  by_cases h : endsWithNl s
  · rw [effectiveLines_of_endsWith s h] at hl
    exact splitOnChar_not_mem '\n' s.dropLast l hl
  · rw [effectiveLines_of_not_endsWith s h] at hl
    exact splitOnChar_not_mem '\n' s l hl

lemma countLeadNl_all_eq_length (t : JsStr) (h : ∀ c ∈ t, c = '\n') :
    countLeadNl t = t.length := by
  induction t with
  | nil => rfl
  | cons c rest ih =>
    rw [countLeadNl, if_pos (h c (List.mem_cons_self c rest))]
    rw [ih (fun c hc => h c (List.mem_cons_of_mem _ hc))]
    rfl

lemma countLeadNl_lt_length (t : JsStr) (c : Char) (hc : c ∈ t) (hne : c ≠ '\n') :
    countLeadNl t < t.length := by
  induction t with
  | nil => simp at hc
  | cons x rest ih =>
    rw [countLeadNl]
    by_cases hx : x = '\n'
    · rw [if_pos hx]
      rcases List.mem_cons.1 hc with rfl | hc
      · exact absurd hx hne
      · have := ih hc
        simp only [List.length_cons]
        omega
    · rw [if_neg hx]
      simp only [List.length_cons]
      omega

lemma countLeadNl_append_full (x y : JsStr) (h : ∀ c ∈ x, c = '\n') :
    countLeadNl (x ++ y) = x.length + countLeadNl y := by
  induction x with
  | nil => simp
  | cons c rest ih =>
    rw [List.cons_append, countLeadNl, if_pos (h c (List.mem_cons_self c rest))]
    rw [ih (fun c hc => h c (List.mem_cons_of_mem _ hc))]
    simp only [List.length_cons]
    omega

lemma countLeadNl_append_stop (x y : JsStr) (c : Char) (hc : c ∈ x) (hne : c ≠ '\n') :
    countLeadNl (x ++ y) = countLeadNl x := by
  induction x with
  | nil => simp at hc
  | cons a rest ih =>
    rw [List.cons_append, countLeadNl, countLeadNl]
    by_cases ha : a = '\n'
    · rw [if_pos ha, if_pos ha]
      rcases List.mem_cons.1 hc with rfl | hc
      · exact absurd ha hne
      · rw [ih hc]
    · rw [if_neg ha, if_neg ha]

lemma trailing_append_nl (s : JsStr) : trailingNlCount (s ++ ['\n']) = trailingNlCount s + 1 := by
  unfold trailingNlCount
  rw [List.reverse_append]
  simp [countLeadNl]

lemma trailing_of_no_nl (s : JsStr) (h : '\n' ∉ s) : trailingNlCount s = 0 := by
  unfold trailingNlCount
  cases hr : s.reverse with
  | nil => rfl
  | cons c rest =>
    have hc : c ∈ s := by
      have hm : c ∈ s.reverse := by rw [hr]; exact List.mem_cons_self c rest
      simpa using hm
    rw [countLeadNl, if_neg (fun hcn : c = '\n' => h (hcn ▸ hc))]

lemma trailing_append_of_stop (a b : JsStr) (c : Char) (hc : c ∈ b) (hne : c ≠ '\n') :
    trailingNlCount (a ++ b) = trailingNlCount b := by
  unfold trailingNlCount
  rw [List.reverse_append]
  exact countLeadNl_append_stop b.reverse a.reverse c (by simpa using hc) hne

lemma trailing_append_of_allNl (a b : JsStr) (h : ∀ c ∈ b, c = '\n') :
    trailingNlCount (a ++ b) = trailingNlCount a + b.length := by
  unfold trailingNlCount
  rw [List.reverse_append]
  rw [countLeadNl_append_full b.reverse a.reverse (fun c hc => h c (by simpa using hc))]
  simp [Nat.add_comm]

lemma allNl_joinNl_iff (ls : List JsStr) (hl : ∀ l ∈ ls, '\n' ∉ l) :
    (∀ c ∈ joinNl ls, c = '\n') ↔ (∀ l ∈ ls, l = []) := by
  induction ls with
  | nil => simp [joinNl]
  | cons x rest ih =>
    cases rest with
    | nil =>
      constructor
      · intro h l hl'
        rw [List.mem_singleton] at hl'
        subst hl'
        rw [List.eq_nil_iff_forall_not_mem]
        intro a ha
        have ha' : a = '\n' := h a ha
        exact hl l (List.mem_singleton.2 rfl) (ha' ▸ ha)
      · intro h c hc
        have hx : x = [] := h x (List.mem_singleton.2 rfl)
        rw [show joinNl [x] = x from rfl, hx] at hc
        simp at hc
    | cons y ys =>
      have ihr := ih (fun l hl' => hl l (List.mem_cons_of_mem _ hl'))
      constructor
      · intro h l hl'
        have h' : ∀ c ∈ x ++ '\n' :: joinNl (y :: ys), c = '\n' := by
          intro c hc
          exact h c (by rw [joinNl_cons _ _ (by simp)]; exact hc)
        rcases List.mem_cons.1 hl' with rfl | hl'
        · rw [List.eq_nil_iff_forall_not_mem]
          intro a ha
          have ha' : a = '\n' := h' a (List.mem_append.2 (Or.inl ha))
          exact hl l (List.mem_cons_self _ _) (ha' ▸ ha)
        · exact ihr.1
            (fun c hc => h' c (List.mem_append.2 (Or.inr (List.mem_cons_of_mem _ hc)))) l hl'
      · intro h c hc
        rw [joinNl_cons _ _ (by simp)] at hc
        rcases List.mem_append.1 hc with hc | hc
        · have hx : x = [] := h x (List.mem_cons_self _ _)
          rw [hx] at hc
          simp at hc
        · rcases List.mem_cons.1 hc with rfl | hc
          · rfl
          · exact ihr.2 (fun l hl' => h l (List.mem_cons_of_mem _ hl')) c hc

lemma joinNl_length_all_empty (a : JsStr) (as : List JsStr) (h : ∀ l ∈ a :: as, l = []) :
    (joinNl (a :: as)).length = as.length := by
  induction as generalizing a with
  | nil =>
    rw [h a (List.mem_cons_self _ _)]
    rfl
  | cons m ms ih =>
    rw [joinNl_cons _ _ (by simp), h a (List.mem_cons_self _ _)]
    simp only [List.nil_append, List.length_cons]
    rw [ih m (fun l hl => h l (List.mem_cons_of_mem _ hl))]

lemma forall₂_empty_transfer (as bs : List JsStr)
    (hf : List.Forall₂ (fun x y => x = [] ↔ y = []) as bs) :
    (∀ l ∈ as, l = []) ↔ (∀ l ∈ bs, l = []) := by
  induction hf with
  | nil => simp
  | @cons x y as' bs' hxy htail ih =>
    simp only [List.mem_cons, forall_eq_or_imp]
    constructor
    · rintro ⟨h1, h2⟩
      exact ⟨hxy.1 h1, (ih.1 h2 : _)⟩
    · rintro ⟨h1, h2⟩
      exact ⟨hxy.2 h1, (ih.2 h2 : _)⟩

lemma trailing_joinNl_congr :
    ∀ (ls ls' : List JsStr),
      List.Forall₂ (fun x y => x = [] ↔ y = []) ls ls' →
      (∀ l ∈ ls, '\n' ∉ l) → (∀ l ∈ ls', '\n' ∉ l) →
      trailingNlCount (joinNl ls) = trailingNlCount (joinNl ls') := by
  intro ls ls' h
  induction h with
  | nil => intro _ _; rfl
  | @cons x y as bs hxy htail ih =>
    intro hl hl'
    cases htail with
    | nil =>
      simp only [joinNl]
      rw [trailing_of_no_nl x (hl x (List.mem_cons_self _ _)),
        trailing_of_no_nl y (hl' y (List.mem_cons_self _ _))]
    | @cons a b as' bs' hab htail' =>
      have hlas : ∀ l ∈ a :: as', '\n' ∉ l := fun l hl2 => hl l (List.mem_cons_of_mem _ hl2)
      have hlbs : ∀ l ∈ b :: bs', '\n' ∉ l := fun l hl2 => hl' l (List.mem_cons_of_mem _ hl2)
      have ihr := ih hlas hlbs
      have hf2 : List.Forall₂ (fun x y => x = [] ↔ y = []) (a :: as') (b :: bs') :=
        List.Forall₂.cons hab htail'
      rw [joinNl_cons x (a :: as') (by simp), joinNl_cons y (b :: bs') (by simp)]
      by_cases hall : ∀ l ∈ a :: as', l = []
      · have hall' : ∀ l ∈ b :: bs', l = [] := (forall₂_empty_transfer _ _ hf2).1 hall
        have hj : ∀ c ∈ '\n' :: joinNl (a :: as'), c = '\n' := by
          intro c hc
          rcases List.mem_cons.1 hc with rfl | hc
          · rfl
          · exact (allNl_joinNl_iff _ hlas).2 hall c hc
        have hj' : ∀ c ∈ '\n' :: joinNl (b :: bs'), c = '\n' := by
          intro c hc
          rcases List.mem_cons.1 hc with rfl | hc
          · rfl
          · exact (allNl_joinNl_iff _ hlbs).2 hall' c hc
        rw [trailing_append_of_allNl x _ hj, trailing_append_of_allNl y _ hj']
        rw [trailing_of_no_nl x (hl x (List.mem_cons_self _ _)),
          trailing_of_no_nl y (hl' y (List.mem_cons_self _ _))]
        simp only [List.length_cons]
        rw [joinNl_length_all_empty a as' hall, joinNl_length_all_empty b bs' hall']
        have hlen : as'.length = bs'.length := htail'.length_eq
        omega
      · have hall' : ¬ ∀ l ∈ b :: bs', l = [] := fun hc =>
          hall ((forall₂_empty_transfer _ _ hf2).2 hc)
        have hex : ∃ c ∈ joinNl (a :: as'), c ≠ '\n' := by
          by_contra hcon
          push_neg at hcon
          exact hall ((allNl_joinNl_iff _ hlas).1 hcon)
        have hex' : ∃ c ∈ joinNl (b :: bs'), c ≠ '\n' := by
          by_contra hcon
          push_neg at hcon
          exact hall' ((allNl_joinNl_iff _ hlbs).1 hcon)
        obtain ⟨c, hc, hcne⟩ := hex
        obtain ⟨c', hc', hcne'⟩ := hex'
        rw [trailing_append_of_stop x ('\n' :: joinNl (a :: as')) c
          (List.mem_cons_of_mem _ hc) hcne]
        rw [trailing_append_of_stop y ('\n' :: joinNl (b :: bs')) c'
          (List.mem_cons_of_mem _ hc') hcne']
        unfold trailingNlCount
        rw [show ('\n' :: joinNl (a :: as')).reverse
            = (joinNl (a :: as')).reverse ++ ['\n'] by simp]
        rw [show ('\n' :: joinNl (b :: bs')).reverse
            = (joinNl (b :: bs')).reverse ++ ['\n'] by simp]
        rw [countLeadNl_append_stop _ _ c (by simpa using hc) hcne]
        rw [countLeadNl_append_stop _ _ c' (by simpa using hc') hcne']
        exact ihr

lemma oFirst_none_right (a : Option DateTime) : oFirst a none = a := by
  cases a <;> rfl

lemma oFirst_some_left (x : DateTime) (b : Option DateTime) : oFirst (some x) b = some x := rfl

lemma seqOf_cons_none (bt : Time) (d : DateOnly) (l : JsStr) (L : List JsStr)
    (hp : parseTimestampLine l = none) : seqOf bt d (l :: L) = seqOf bt d L := by
  simp [seqOf, hp]

lemma seqOf_cons_some (bt : Time) (d : DateOnly) (l : JsStr) (L : List JsStr)
    (pr : Time × JsStr) (hp : parseTimestampLine l = some pr) :
    seqOf bt d (l :: L) = applyOffset bt d pr.1 :: seqOf bt d L := by
  simp [seqOf, hp]

lemma adjStep_lines (bt : Time) (d : DateOnly) (st : AdjSt) (l : JsStr) :
    (adjStep bt d st l).lines = st.lines ++ [procLine bt d l] := by
  unfold adjStep procLine
  cases parseTimestampLine l <;> simp

lemma foldl_adjStep_lines (bt : Time) (d : DateOnly) (L : List JsStr) (st : AdjSt) :
    (L.foldl (adjStep bt d) st).lines = st.lines ++ L.map (procLine bt d) := by
  induction L generalizing st with
  | nil => simp
  | cons l L ih =>
    rw [List.foldl_cons, ih, adjStep_lines]
    simp

lemma foldl_adjStep_first (bt : Time) (d : DateOnly) (L : List JsStr) (st : AdjSt) :
    (L.foldl (adjStep bt d) st).first = oFirst st.first (seqOf bt d L).head? := by
  induction L generalizing st with
  | nil =>
    simp only [List.foldl_nil, seqOf, List.filterMap_nil, List.head?_nil]
    rw [oFirst_none_right]
  | cons l L ih =>
    rw [List.foldl_cons, ih]
    cases hp : parseTimestampLine l with
    | none =>
      have h1 : (adjStep bt d st l).first = st.first := by unfold adjStep; rw [hp]
      rw [h1, seqOf_cons_none bt d l L hp]
    | some pr =>
      obtain ⟨stl, stf, stla, stp, sto⟩ := st
      have h1 : (adjStep bt d ⟨stl, stf, stla, stp, sto⟩ l).first
          = oFirst stf (some (applyOffset bt d pr.1)) := by
        unfold adjStep
        rw [hp]
        cases stf <;> rfl
      rw [h1, seqOf_cons_some bt d l L pr hp]
      cases stf <;> simp [oFirst]

lemma foldl_adjStep_last (bt : Time) (d : DateOnly) (L : List JsStr) (st : AdjSt) :
    (L.foldl (adjStep bt d) st).last = oFirst (seqOf bt d L).getLast? st.last := by
  induction L generalizing st with
  | nil =>
    simp only [List.foldl_nil, seqOf, List.filterMap_nil, List.getLast?_nil]
    rfl
  | cons l L ih =>
    rw [List.foldl_cons, ih]
    cases hp : parseTimestampLine l with
    | none =>
      have h1 : (adjStep bt d st l).last = st.last := by unfold adjStep; rw [hp]
      rw [h1, seqOf_cons_none bt d l L hp]
    | some pr =>
      have h1 : (adjStep bt d st l).last = some (applyOffset bt d pr.1) := by
        unfold adjStep; rw [hp]
      rw [h1, seqOf_cons_some bt d l L pr hp]
      cases hseq : seqOf bt d L with
      | nil => rfl
      | cons q qs =>
        rw [List.getLast?_cons_cons, List.getLast?_eq_getLast (q :: qs) (by simp)]
        rfl

lemma foldl_adjStep_prev (bt : Time) (d : DateOnly) (L : List JsStr) (st : AdjSt) :
    (L.foldl (adjStep bt d) st).prev = oFirst (seqOf bt d L).getLast? st.prev := by
  induction L generalizing st with
  | nil =>
    simp only [List.foldl_nil, seqOf, List.filterMap_nil, List.getLast?_nil]
    rfl
  | cons l L ih =>
    rw [List.foldl_cons, ih]
    cases hp : parseTimestampLine l with
    | none =>
      have h1 : (adjStep bt d st l).prev = st.prev := by unfold adjStep; rw [hp]
      rw [h1, seqOf_cons_none bt d l L hp]
    | some pr =>
      have h1 : (adjStep bt d st l).prev = some (applyOffset bt d pr.1) := by
        unfold adjStep; rw [hp]
      rw [h1, seqOf_cons_some bt d l L pr hp]
      cases hseq : seqOf bt d L with
      | nil => rfl
      | cons q qs =>
        rw [List.getLast?_cons_cons, List.getLast?_eq_getLast (q :: qs) (by simp)]
        rfl

lemma foldl_adjStep_ooo (bt : Time) (d : DateOnly) (L : List JsStr) (st : AdjSt) :
    (L.foldl (adjStep bt d) st).ooo = (st.ooo || decreasesFrom st.prev (seqOf bt d L)) := by
  induction L generalizing st with
  | nil =>
    simp only [List.foldl_nil, seqOf, List.filterMap_nil]
    cases h : st.prev <;> simp [decreasesFrom]
  | cons l L ih =>
    rw [List.foldl_cons, ih]
    cases hp : parseTimestampLine l with
    | none =>
      have h1 : (adjStep bt d st l).ooo = st.ooo := by unfold adjStep; rw [hp]
      have h2 : (adjStep bt d st l).prev = st.prev := by unfold adjStep; rw [hp]
      rw [h1, h2, seqOf_cons_none bt d l L hp]
    | some pr =>
      obtain ⟨stl, stf, stla, stp, sto⟩ := st
      have h1 : (adjStep bt d ⟨stl, stf, stla, stp, sto⟩ l).ooo
          = (sto || (match stp with
              | some p => decide (compareDateTime (applyOffset bt d pr.1) p < 0)
              | none => false)) := by
        unfold adjStep; rw [hp]
      have h2 : (adjStep bt d ⟨stl, stf, stla, stp, sto⟩ l).prev
          = some (applyOffset bt d pr.1) := by
        unfold adjStep; rw [hp]
      rw [h1, h2, seqOf_cons_some bt d l L pr hp]
      cases stp <;> simp [decreasesFrom, Bool.or_assoc]

lemma applyOffset_fields (start relative : Time) (effectiveDate : DateOnly) :
    (applyOffset start effectiveDate relative).hours
        = (timeToSeconds start + timeToSeconds relative) % 86400 / 3600
      ∧ (applyOffset start effectiveDate relative).minutes
        = (timeToSeconds start + timeToSeconds relative) % 86400 % 3600 / 60
      ∧ (applyOffset start effectiveDate relative).seconds
        = (timeToSeconds start + timeToSeconds relative) % 86400 % 60 := by
  simp [applyOffset, secondsToTimeWithOverflow, createDateTime]

lemma applyOffset_le (start relative : Time) (effectiveDate : DateOnly) :
    (applyOffset start effectiveDate relative).hours ≤ 99
      ∧ (applyOffset start effectiveDate relative).minutes ≤ 99
      ∧ (applyOffset start effectiveDate relative).seconds ≤ 99 := by
  obtain ⟨eh, em, es⟩ := applyOffset_fields start relative effectiveDate
  refine ⟨?_, ?_, ?_⟩
  · rw [eh]; omega
  · rw [em]; omega
  · rw [es]; omega

lemma digitToChar_digitVal (c : Char) (h : isDigit c) : digitToChar (digitVal c) = c := by
  unfold isDigit at h
  fin_cases h <;> decide

lemma digitVal_le_nine (c : Char) (h : isDigit c) : digitVal c ≤ 9 := by
  unfold isDigit at h
  fin_cases h <;> decide

lemma natDigitsAux_lt_ten (n fuel : Nat) (hn : n < 10) (hf : 0 < fuel) :
    natDigitsAux n fuel = [digitToChar n] := by
  cases fuel with
  | zero => omega
  | succ f => simp [natDigitsAux, hn]

lemma natDigits_lt_ten (n : Nat) (hn : n < 10) : natDigits n = [digitToChar n] :=
  natDigitsAux_lt_ten n (n + 1) hn (by omega)

lemma natDigits_two_digits (n : Nat) (h1 : 10 ≤ n) (h2 : n ≤ 99) :
    natDigits n = [digitToChar (n / 10), digitToChar (n % 10)] := by
  unfold natDigits natDigitsAux
  rw [if_neg (by omega)]
  rw [natDigitsAux_lt_ten (n / 10) n (by omega) (by omega)]
  rfl

lemma pad2_digits (a b : Nat) (ha : a ≤ 9) (hb : b ≤ 9) :
    pad2 (10 * a + b) = [digitToChar a, digitToChar b] := by
  unfold pad2
  rcases Nat.eq_zero_or_pos a with rfl | hpos
  · simp only [Nat.mul_zero, Nat.zero_add]
    rw [natDigits_lt_ten b (by omega)]
    have h0 : digitToChar 0 = '0' := by decide
    simp [padStart2, h0]
  · rw [natDigits_two_digits (10 * a + b) (by omega) (by omega)]
    have hda : (10 * a + b) / 10 = a := by omega
    have hdb : (10 * a + b) % 10 = b := by omega
    rw [hda, hdb]
    rfl

lemma pad2_no_nl (n : Nat) (hn : n ≤ 99) : '\n' ∉ pad2 n := by
  have h9 : ∀ k < 10, digitToChar k ≠ '\n' := by decide
  rcases Nat.lt_or_ge n 10 with h | h
  · unfold pad2
    rw [natDigits_lt_ten n h]
    intro hmem
    rcases List.mem_cons.1 hmem with h1 | h1
    · exact absurd h1 (by decide)
    · rcases List.mem_singleton.1 h1 with h2
      exact h9 n h h2.symm
  · have hsplit : 10 * (n / 10) + n % 10 = n := by omega
    have hp := pad2_digits (n / 10) (n % 10) (by omega) (by omega)
    rw [hsplit] at hp
    rw [hp]
    intro hmem
    rcases List.mem_cons.1 hmem with h1 | h1
    · exact h9 (n / 10) (by omega) h1.symm
    · rcases List.mem_singleton.1 h1 with h2
      exact h9 (n % 10) (by omega) h2.symm

lemma formatTime_no_nl (t : Time) (hh : t.hours ≤ 99) (hm : t.minutes ≤ 99)
    (hs : t.seconds ≤ 99) : '\n' ∉ formatTime t := by
  unfold formatTime
  intro hmem
  rcases List.mem_append.1 hmem with h | h
  · rcases List.mem_append.1 h with h | h
    · exact pad2_no_nl _ hh h
    · rcases List.mem_cons.1 h with h | h
      · exact absurd h (by decide)
      · exact pad2_no_nl _ hm h
  · rcases List.mem_cons.1 h with h | h
    · exact absurd h (by decide)
    · exact pad2_no_nl _ hs h

lemma formatTime_ne_nil (t : Time) : formatTime t ≠ [] := by
  unfold formatTime
  intro h
  rcases List.append_eq_nil.mp h with ⟨_, h2⟩
  exact List.cons_ne_nil _ _ h2

lemma parseTimestampLine_nil : parseTimestampLine ([] : JsStr) = none := by decide

lemma parseTimestampLine_some_rest (l : JsStr) (pr : Time × JsStr)
    (hp : parseTimestampLine l = some pr) : pr.2 = l.drop 8 := by
  unfold parseTimestampLine at hp
  by_cases hl : l.length < 8
  · rw [if_pos hl] at hp; cases hp
  · rw [if_neg hl] at hp
    cases hpt : parseTime (l.take 8) with
    | none => rw [hpt] at hp; cases hp
    | some t =>
      rw [hpt] at hp
      injection hp with hp
      rw [← hp]

lemma procLine_empty_iff (bt : Time) (d : DateOnly) (l : JsStr) :
    procLine bt d l = [] ↔ l = [] := by
  unfold procLine
  cases hp : parseTimestampLine l with
  | none => exact Iff.rfl
  | some pr =>
    constructor
    · intro h
      exact absurd (List.append_eq_nil.mp h).1 (formatTime_ne_nil _)
    · rintro rfl
      rw [parseTimestampLine_nil] at hp
      cases hp

lemma procLine_no_nl (bt : Time) (d : DateOnly) (l : JsStr) (h : '\n' ∉ l) :
    '\n' ∉ procLine bt d l := by
  unfold procLine
  cases hp : parseTimestampLine l with
  | none => exact h
  | some pr =>
    intro hmem
    rcases List.mem_append.1 hmem with hm | hm
    · obtain ⟨bh, bm, bs⟩ := applyOffset_le bt pr.1 d
      exact formatTime_no_nl _ bh bm bs hm
    · rw [parseTimestampLine_some_rest l pr hp] at hm
      exact h (List.mem_of_mem_drop hm)

lemma finalSt_first (bt : Time) (d : DateOnly) (contents : JsStr) :
    (finalSt bt d contents).first = (adjustedSeq bt d contents).head? := by
  unfold finalSt adjustedSeq
  rw [foldl_adjStep_first]
  rfl

lemma finalSt_last (bt : Time) (d : DateOnly) (contents : JsStr) :
    (finalSt bt d contents).last = (adjustedSeq bt d contents).getLast? := by
  unfold finalSt adjustedSeq
  rw [foldl_adjStep_last]
  exact oFirst_none_right _

lemma finalSt_ooo (bt : Time) (d : DateOnly) (contents : JsStr) :
    (finalSt bt d contents).ooo = hasAdjacentDecrease (adjustedSeq bt d contents) := by
  unfold finalSt adjustedSeq hasAdjacentDecrease
  rw [foldl_adjStep_ooo]
  simp

lemma finalSt_lines (bt : Time) (d : DateOnly) (contents : JsStr) :
    (finalSt bt d contents).lines = (effectiveLines contents).map (procLine bt d) := by
  unfold finalSt
  rw [foldl_adjStep_lines]
  simp

lemma adjustTranscript_ok_inv (contents : JsStr) (bt : Time) (d : DateOnly)
    (u : TranscriptUpdate) (h : adjustTranscript contents bt d = .ok u) :
    u.body = (if endsWithNl contents
        then joinNl ((effectiveLines contents).map (procLine bt d)) ++ ['\n']
        else joinNl ((effectiveLines contents).map (procLine bt d)))
    ∧ (adjustedSeq bt d contents).head? = some u.firstTimestamp
    ∧ (adjustedSeq bt d contents).getLast? = some u.lastTimestamp
    ∧ u.hasOutOfOrderTimestamps = hasAdjacentDecrease (adjustedSeq bt d contents) := by
  unfold adjustTranscript at h
  cases hf : (finalSt bt d contents).first with
  | none =>
    rw [hf] at h
    exact absurd h (by simp)
  | some f =>
    rw [hf] at h
    simp only [Except.ok.injEq] at h
    have hfirst : (adjustedSeq bt d contents).head? = some f := by
      rw [← finalSt_first]; exact hf
    have hne : adjustedSeq bt d contents ≠ [] := by
      intro hnil
      rw [hnil] at hfirst
      cases hfirst
    have hlast := List.getLast?_eq_getLast _ hne
    subst h
    refine ⟨?_, hfirst, ?_, ?_⟩
    · simp only
      rw [finalSt_lines]
    · simp only
      rw [finalSt_last, hlast]
      rfl
    · simp only
      rw [finalSt_ooo]

lemma endsWithNl_iff_trailing_pos (s : JsStr) : endsWithNl s ↔ 0 < trailingNlCount s := by
  unfold endsWithNl trailingNlCount
  rw [← List.head?_reverse]
  cases hr : s.reverse with
  | nil => simp [countLeadNl]
  | cons c rest =>
    simp only [List.head?_cons, countLeadNl]
    constructor
    · intro h
      injection h with h
      rw [if_pos h]
      omega
    · intro h
      by_cases hc : c = '\n'
      · rw [hc]
      · rw [if_neg hc] at h
        omega


/-! ## Merge-side lemmas -/

lemma detectGo_some_iff (c : NestedDirInfo) (ps : List JsStr) (v : NestedDirInfo) :
    detectGo (some c) ps = some v
      ↔ v = c ∧ ∀ p ∈ ps, extractNestedDayDirectory p = some c := by
  induction ps with
  | nil => simp [detectGo, eq_comm]
  | cons p ps ih =>
    cases he : extractNestedDayDirectory p with
    | none =>
      simp only [detectGo, he]
      constructor
      · intro h; cases h
      · rintro ⟨rfl, hall⟩
        have := hall p (List.mem_cons_self _ _)
        rw [he] at this
        cases this
    | some info =>
      obtain ⟨cdir, cy, cm, cd⟩ := c
      obtain ⟨idir, iy, im, id'⟩ := info
      by_cases hd : cdir ≠ idir ∨ cy ≠ iy ∨ cm ≠ im ∨ cd ≠ id'
      · have hstep : detectGo (some ⟨cdir, ⟨cy, cm, cd⟩⟩) (p :: ps) = none := by
          simp only [detectGo, he]
          rw [if_pos]
          exact hd
        rw [hstep]
        constructor
        · intro h; cases h
        · rintro ⟨rfl, hall⟩
          exfalso
          have heq := hall p (List.mem_cons_self _ _)
          rw [he] at heq
          injection heq with heq
          simp only [NestedDirInfo.mk.injEq, DateOnly.mk.injEq] at heq
          obtain ⟨hdir, hy, hm, hd'⟩ := heq
          rcases hd with h | h | h | h
          · exact h hdir.symm
          · exact h hy.symm
          · exact h hm.symm
          · exact h hd'.symm
      · push_neg at hd
        obtain ⟨h1, h2, h3, h4⟩ := hd
        subst h1; subst h2; subst h3; subst h4
        have hstep : detectGo (some ⟨cdir, ⟨cy, cm, cd⟩⟩) (p :: ps)
            = detectGo (some ⟨cdir, ⟨cy, cm, cd⟩⟩) ps := by
          simp only [detectGo, he]
          rw [if_neg]
          simp
        rw [hstep, ih]
        constructor
        · rintro ⟨rfl, hall⟩
          exact ⟨rfl, fun q hq => by
            rcases List.mem_cons.1 hq with rfl | hq
            · exact he
            · exact hall q hq⟩
        · rintro ⟨rfl, hall⟩
          exact ⟨rfl, fun q hq => hall q (List.mem_cons_of_mem _ hq)⟩

lemma detectCommon_some_iff (ps : List JsStr) (v : NestedDirInfo) :
    detectCommonNestedDirectory ps = some v
      ↔ ps ≠ [] ∧ ∀ p ∈ ps, extractNestedDayDirectory p = some v := by
  cases ps with
  | nil => simp [detectCommonNestedDirectory, detectGo]
  | cons p ps =>
    unfold detectCommonNestedDirectory
    cases he : extractNestedDayDirectory p with
    | none =>
      simp only [detectGo, he]
      constructor
      · intro h; cases h
      · rintro ⟨-, hall⟩
        have := hall p (List.mem_cons_self _ _)
        rw [he] at this
        cases this
    | some info =>
      have hstep : detectGo none (p :: ps) = detectGo (some info) ps := by
        simp [detectGo, he]
      rw [hstep, detectGo_some_iff]
      constructor
      · rintro ⟨rfl, hall⟩
        refine ⟨by simp, fun q hq => ?_⟩
        rcases List.mem_cons.1 hq with rfl | hq
        · exact he
        · exact hall q hq
      · rintro ⟨-, hall⟩
        have hv : extractNestedDayDirectory p = some v := hall p (List.mem_cons_self _ _)
        rw [he] at hv
        injection hv with hv
        subst hv
        exact ⟨rfl, fun q hq => hall q (List.mem_cons_of_mem _ hq)⟩

lemma pickCommonDate_some_ok (s : DateOnly) (l : List (JsStr × FileSortKey))
    (h : ∀ d ∈ l.filterMap (fun pk => pk.2.date), d = s) :
    pickCommonDate (some s) l = .ok (some s) := by
  induction l with
  | nil => rfl
  | cons pk rest ih =>
    obtain ⟨p, k⟩ := pk
    cases hk : k.date with
    | none =>
      have hstep : pickCommonDate (some s) ((p, k) :: rest) = pickCommonDate (some s) rest := by
        simp [pickCommonDate, hk]
      rw [hstep]
      apply ih
      intro d hd
      apply h
      simpa [hk] using hd
    | some d =>
      have hds : d = s := by
        apply h
        simp [hk]
      subst hds
      have hstep : pickCommonDate (some d) ((p, k) :: rest) = pickCommonDate (some d) rest := by
        simp [pickCommonDate, hk]
      rw [hstep]
      apply ih
      intro d' hd'
      apply h
      simpa [hk] using Or.inr hd'

lemma pickCommonDate_some_err (s : DateOnly) (l : List (JsStr × FileSortKey)) (d0 : DateOnly)
    (hd0 : d0 ∈ l.filterMap (fun pk => pk.2.date)) (hne : d0 ≠ s) :
    pickCommonDate (some s) l = .error .mixedDates := by
  induction l with
  | nil => simp at hd0
  | cons pk rest ih =>
    obtain ⟨p, k⟩ := pk
    cases hk : k.date with
    | none =>
      have hstep : pickCommonDate (some s) ((p, k) :: rest) = pickCommonDate (some s) rest := by
        simp [pickCommonDate, hk]
      rw [hstep]
      apply ih
      simpa [hk] using hd0
    | some d =>
      by_cases hds : d = s
      · subst hds
        have hstep : pickCommonDate (some d) ((p, k) :: rest) = pickCommonDate (some d) rest := by
          simp [pickCommonDate, hk]
        rw [hstep]
        apply ih
        have : d0 ∈ d :: rest.filterMap (fun pk => pk.2.date) := by
          simpa [hk] using hd0
        rcases List.mem_cons.1 this with rfl | hmem
        · exact absurd rfl hne
        · exact hmem
      · obtain ⟨sy, sm, sd⟩ := s
        obtain ⟨dy, dm, dd⟩ := d
        have hfield : sy ≠ dy ∨ sm ≠ dm ∨ sd ≠ dd := by
          by_contra hcon
          push_neg at hcon
          obtain ⟨e1, e2, e3⟩ := hcon
          exact hds (by rw [e1, e2, e3])
        simp [pickCommonDate, hk, hfield]

lemma pickCommonDate_none_nil_dates (l : List (JsStr × FileSortKey))
    (h : l.filterMap (fun pk => pk.2.date) = []) :
    pickCommonDate none l = .ok none := by
  induction l with
  | nil => rfl
  | cons pk rest ih =>
    obtain ⟨p, k⟩ := pk
    cases hk : k.date with
    | none =>
      have hstep : pickCommonDate none ((p, k) :: rest) = pickCommonDate none rest := by
        simp [pickCommonDate, hk]
      rw [hstep]
      apply ih
      simpa [hk] using h
    | some d =>
      rw [List.filterMap_cons] at h
      simp [hk] at h

lemma pickCommonDate_none_cons (l : List (JsStr × FileSortKey)) (d0 : DateOnly)
    (ds : List DateOnly) (h : l.filterMap (fun pk => pk.2.date) = d0 :: ds) :
    (∀ d ∈ ds, d = d0) → pickCommonDate none l = .ok (some d0) := by
  induction l with
  | nil => simp at h
  | cons pk rest ih =>
    intro hall
    obtain ⟨p, k⟩ := pk
    cases hk : k.date with
    | none =>
      have hstep : pickCommonDate none ((p, k) :: rest) = pickCommonDate none rest := by
        simp [pickCommonDate, hk]
      rw [hstep]
      exact ih (by simpa [hk] using h) hall
    | some d =>
      rw [List.filterMap_cons] at h
      simp only [hk, Option.map_some] at h
      injection h with h1 h2
      have hstep : pickCommonDate none ((p, k) :: rest) = pickCommonDate (some d) rest := by
        simp [pickCommonDate, hk]
      rw [hstep, h1]
      apply pickCommonDate_some_ok
      intro d' hd'
      exact hall d' (by rw [h2] at hd'; exact hd')

lemma pickCommonDate_none_err (l : List (JsStr × FileSortKey)) (d0 : DateOnly)
    (ds : List DateOnly) (h : l.filterMap (fun pk => pk.2.date) = d0 :: ds)
    (d : DateOnly) (hd : d ∈ ds) (hne : d ≠ d0) :
    pickCommonDate none l = .error .mixedDates := by
  induction l with
  | nil => simp at h
  | cons pk rest ih =>
    obtain ⟨p, k⟩ := pk
    cases hk : k.date with
    | none =>
      have hstep : pickCommonDate none ((p, k) :: rest) = pickCommonDate none rest := by
        simp [pickCommonDate, hk]
      rw [hstep]
      exact ih (by simpa [hk] using h)
    | some d1 =>
      rw [List.filterMap_cons] at h
      simp only [hk, Option.map_some] at h
      injection h with h1 h2
      have hstep : pickCommonDate none ((p, k) :: rest) = pickCommonDate (some d1) rest := by
        simp [pickCommonDate, hk]
      rw [hstep, h1]
      exact pickCommonDate_some_err d0 rest d (by rw [h2]; exact hd) hne

lemma fsLookup_fsWrite_self (fs : FS) (p v : JsStr) :
    fsLookup (fsWrite fs p v) p = some v := by
  induction fs with
  | nil => simp [fsWrite, fsLookup]
  | cons e rest ih =>
    obtain ⟨q, w⟩ := e
    by_cases hq : q = p
    · simp [fsWrite, fsLookup, hq]
    · simp [fsWrite, fsLookup, hq, ih]

lemma fsLookup_fsDelete_ne (fs : FS) (q p : JsStr) (h : q ≠ p) :
    fsLookup (fsDelete fs q) p = fsLookup fs p := by
  induction fs with
  | nil => rfl
  | cons e rest ih =>
    obtain ⟨r, w⟩ := e
    by_cases hr : r = q
    · subst hr
      simp [fsDelete, fsLookup, h, ih]
    · by_cases hp : r = p
      · simp [fsDelete, fsLookup, hr, hp, Ne.symm h]
      · simp [fsDelete, fsLookup, hr, hp, ih]

lemma deleteGo_lookup_out (out : JsStr) :
    ∀ (files : List JsStr) (fs fs' : FS), deleteGo out fs files = .ok fs' →
      fsLookup fs' out = fsLookup fs out := by
  intro files
  induction files with
  | nil =>
    intro fs fs' h
    injection h with h
    rw [h]
  | cons p rest ih =>
    intro fs fs' h
    unfold deleteGo at h
    by_cases hc : canonical fs p = out
    · rw [if_pos hc] at h
      exact ih fs fs' h
    · rw [if_neg hc] at h
      by_cases he : fsExists fs p
      · rw [if_pos he] at h
        have := ih (fsDelete fs p) fs' h
        rw [this]
        exact fsLookup_fsDelete_ne fs p out hc
      · rw [if_neg he] at h
        cases h

lemma getSortKey_error_shape (p : JsStr) (e : MergeError) (h : getSortKey p = .error e) :
    e = .unrecognizedFilename p := by
  simp only [getSortKey] at h
  split_ifs at h
  · simp only [parseFlat] at h
    cases h1 : parseDateCompact ((splitOnChar '_' (stripExt (pathBasename p))).getD 0 []) with
    | none =>
      rw [h1] at h
      injection h with h
      exact h.symm
    | some d =>
      rw [h1] at h
      cases h2 : parseTimeDigits ((splitOnChar '_' (stripExt (pathBasename p))).getD 1 []) with
      | none =>
        rw [h2] at h
        injection h with h
        exact h.symm
      | some t =>
        rw [h2] at h
        cases h
  · simp only [parseNested] at h
    cases h1 : parseTimeDigits ((splitOnChar '-' (stripExt (pathBasename p))).getD 0 []) with
    | none =>
      rw [h1] at h
      injection h with h
      exact h.symm
    | some t =>
      rw [h1] at h
      cases h
  · injection h with h
    exact h.symm

lemma extractKeys_error_of_bad (collected : List JsStr) (p : JsStr) (hp : p ∈ collected)
    (e0 : MergeError) (hbad : getSortKey p = .error e0) :
    ∃ q ∈ collected, getSortKey q = .error (.unrecognizedFilename q)
      ∧ extractKeys collected = .error (.unrecognizedFilename q) := by
  induction collected with
  | nil => simp at hp
  | cons r rest ih =>
    cases hk : getSortKey r with
    | error e =>
      have hshape := getSortKey_error_shape r e hk
      subst hshape
      refine ⟨r, List.mem_cons_self _ _, hk, ?_⟩
      unfold extractKeys
      rw [hk]
    | ok k =>
      rcases List.mem_cons.1 hp with rfl | hp'
      · rw [hk] at hbad
        cases hbad
      · obtain ⟨q, hq, hq2, hq3⟩ := ih hp'
        refine ⟨q, List.mem_cons_of_mem _ hq, hq2, ?_⟩
        unfold extractKeys
        rw [hk, hq3]

lemma write_gives_content (fs fs1 : FS) (sources : List JsStr) (outputPath : JsStr)
    (hw : writeMergedFile fs sources outputPath = .ok fs1) :
    ∃ merged, buildMerged fs sources [] = .ok merged
      ∧ fsLookup fs1 outputPath = some merged := by
  unfold writeMergedFile at hw
  cases hb : buildMerged fs sources [] with
  | error e => rw [hb] at hw; cases hw
  | ok merged =>
    rw [hb] at hw
    injection hw with hw
    exact ⟨merged, rfl, by rw [← hw]; exact fsLookup_fsWrite_self fs outputPath merged⟩

lemma delete_keeps_out (fs1 fs2 : FS) (sources : List JsStr) (outputPath : JsStr)
    (hdel : deleteSources fs1 sources outputPath = .ok fs2) :
    fsLookup fs2 outputPath = fsLookup fs1 outputPath := by
  unfold deleteSources at hdel
  exact deleteGo_lookup_out (canonical fs1 outputPath) sources fs1 fs2 hdel

lemma mem_filter_ne_out (fs : FS) (ordered : List JsStr) (outputPath : JsStr) :
    ∀ p ∈ ordered.filter (fun p => decide (canonical fs p ≠ canonical fs outputPath)),
      p ≠ outputPath := by
  intro p hp
  have := List.of_mem_filter hp
  simpa [canonical] using this

lemma dedupAux_chain (prev : JsStr) (l : List JsStr) :
    List.Chain' (fun a b => a ≠ b) (prev :: dedupAux prev l) := by
  induction l generalizing prev with
  | nil => simp [dedupAux]
  | cons p rest ih =>
    unfold dedupAux
    by_cases hp : p = prev
    · rw [if_pos hp]
      exact ih prev
    · rw [if_neg hp]
      rw [List.chain'_cons]
      exact ⟨fun hc => hp hc.symm, ih p⟩

lemma dedupAux_sublist (prev : JsStr) (l : List JsStr) :
    List.Sublist (dedupAux prev l) l := by
  induction l generalizing prev with
  | nil => simp [dedupAux]
  | cons p rest ih =>
    unfold dedupAux
    by_cases hp : p = prev
    · rw [if_pos hp]
      exact List.Sublist.cons p (ih prev)
    · rw [if_neg hp]
      exact List.Sublist.cons₂ p (ih p)

lemma mem_dedupAux (prev q : JsStr) (l : List JsStr) (hq : q ∈ l) :
    q ∈ prev :: dedupAux prev l := by
  induction l generalizing prev with
  | nil => simp at hq
  | cons p rest ih =>
    unfold dedupAux
    by_cases hp : p = prev
    · rw [if_pos hp]
      rcases List.mem_cons.1 hq with rfl | hq'
      · rw [hp]
        exact List.mem_cons_self _ _
      · exact ih prev hq'
    · rw [if_neg hp]
      rcases List.mem_cons.1 hq with rfl | hq'
      · exact List.mem_cons_of_mem _ (List.mem_cons_self _ _)
      · rcases List.mem_cons.1 (ih p hq') with rfl | hq''
        · exact List.mem_cons_of_mem _ (List.mem_cons_self _ _)
        · exact List.mem_cons_of_mem _ (List.mem_cons_of_mem _ hq'')

lemma parseDateCompact_some (s : JsStr) (h8 : s.length = 8) (hd : allDigits s) :
    parseDateCompact s = some ⟨digitsToNat (s.take 4), digitsToNat ((s.drop 4).take 2),
      digitsToNat ((s.drop 6).take 2)⟩ := by
  simp only [parseDateCompact]
  rw [if_pos ⟨h8, hd⟩]

lemma parseTimeDigits_none_iff (s : JsStr) (h6 : s.length = 6) (hd : allDigits s) :
    parseTimeDigits s = none ↔ startTimeOutOfRange s := by
  simp only [parseTimeDigits, startTimeOutOfRange]
  rw [if_pos ⟨h6, hd⟩]
  split_ifs with hr
  · simp [hr]
  · simp [hr]

lemma parseFlat_error_iff (p fn : JsStr) (hflat : looksLikeFlatFormat fn) :
    parseFlat p fn = .error (.unrecognizedFilename p)
      ↔ startTimeOutOfRange ((splitOnChar '_' fn).getD 1 []) := by
  have hflat' := hflat
  unfold looksLikeFlatFormat at hflat'
  obtain ⟨-, ⟨h8, hd8⟩, ⟨h6, hd6⟩, -⟩ := hflat'
  cases hpt : parseTimeDigits ((splitOnChar '_' fn).getD 1 []) with
  | none =>
    simp only [parseFlat, parseDateCompact_some ((splitOnChar '_' fn).getD 0 []) h8 hd8, hpt]
    constructor
    · intro _
      exact (parseTimeDigits_none_iff _ h6 hd6).1 hpt
    · intro _
      trivial
  | some t =>
    simp only [parseFlat, parseDateCompact_some ((splitOnChar '_' fn).getD 0 []) h8 hd8, hpt]
    constructor
    · intro hcon
      exact absurd hcon (by simp)
    · intro hr
      exfalso
      rw [(parseTimeDigits_none_iff _ h6 hd6).2 hr] at hpt
      cases hpt

lemma parseNested_error_iff (p fn : JsStr) (hnest : looksLikeNestedFormat fn) :
    parseNested p fn = .error (.unrecognizedFilename p)
      ↔ startTimeOutOfRange ((splitOnChar '-' fn).getD 0 []) := by
  have hnest' := hnest
  unfold looksLikeNestedFormat at hnest'
  obtain ⟨-, ⟨h6, hd6⟩, -⟩ := hnest'
  cases hpt : parseTimeDigits ((splitOnChar '-' fn).getD 0 []) with
  | none =>
    simp only [parseNested, hpt]
    constructor
    · intro _
      exact (parseTimeDigits_none_iff _ h6 hd6).1 hpt
    · intro _
      trivial
  | some t =>
    simp only [parseNested, hpt]
    constructor
    · intro hcon
      exact absurd hcon (by simp)
    · intro hr
      exfalso
      rw [(parseTimeDigits_none_iff _ h6 hd6).2 hr] at hpt
      cases hpt

lemma getSortKey_error_iff (p : JsStr) :
    getSortKey p = .error (.unrecognizedFilename p) ↔ unrecognizableName p := by
  simp only [getSortKey, unrecognizableName]
  by_cases hflat : looksLikeFlatFormat (stripExt (pathBasename p))
  · rw [if_pos hflat, parseFlat_error_iff p _ hflat]
    constructor
    · intro hr
      exact Or.inr (Or.inl ⟨hflat, hr⟩)
    · rintro (⟨hnf, -⟩ | ⟨-, hr⟩ | ⟨hnf, -, -⟩)
      · exact absurd hflat hnf
      · exact hr
      · exact absurd hflat hnf
  · rw [if_neg hflat]
    by_cases hnest : looksLikeNestedFormat (stripExt (pathBasename p))
    · rw [if_pos hnest, parseNested_error_iff p _ hnest]
      constructor
      · intro hr
        exact Or.inr (Or.inr ⟨hflat, hnest, hr⟩)
      · rintro (⟨-, hnn⟩ | ⟨hf, -⟩ | ⟨-, -, hr⟩)
        · exact absurd hnest hnn
        · exact absurd hf hflat
        · exact hr
    · rw [if_neg hnest]
      constructor
      · intro _
        exact Or.inl ⟨hflat, hnest⟩
      · intro _
        rfl


/-! ## Claims -/

/-- C1 counterexample: a dated sort key compared against a date-absent key
yields `1` (the dated key orders strictly AFTER the date-absent key), refuting
the claim that a key with a date orders strictly before a date-absent key. -/
theorem C1_counterexample :
    compareSortKeys ⟨some ⟨2025, 1, 27⟩, 11, 22, 56⟩ ⟨none, 6, 19, 1⟩ = 1
    ∧ ¬ compareSortKeys ⟨some ⟨2025, 1, 27⟩, 11, 22, 56⟩ ⟨none, 6, 19, 1⟩ < 0 := by
  decide

/-- C1 (amended): in `compareSortKeys` a date-absent key orders strictly
BEFORE a dated key (and a dated one strictly after a date-absent one); among
two dated keys the order is lexicographic by (year, month, day) and then by
start time; among two date-absent keys the order is by start time only. -/
theorem C1_amended_thm (a b : FileSortKey) :
    (∀ bd : DateOnly, a.date = none → b.date = some bd → compareSortKeys a b < 0)
    ∧ (∀ ad : DateOnly, a.date = some ad → b.date = none → 0 < compareSortKeys a b)
    ∧ (∀ ad bd : DateOnly, a.date = some ad → b.date = some bd →
        ((compareSortKeys a b < 0 ↔ (dateLexLt ad bd ∨ (ad = bd ∧ startLexLt a b)))
          ∧ (compareSortKeys a b = 0 ↔ (ad = bd ∧ a.startHours = b.startHours
              ∧ a.startMinutes = b.startMinutes ∧ a.startSeconds = b.startSeconds))))
    ∧ (a.date = none → b.date = none →
        ((compareSortKeys a b < 0 ↔ startLexLt a b)
          ∧ (compareSortKeys a b = 0 ↔ (a.startHours = b.startHours
              ∧ a.startMinutes = b.startMinutes ∧ a.startSeconds = b.startSeconds)))) := by
  obtain ⟨da, ah, am, asec⟩ := a
  obtain ⟨db, bh, bm, bsec⟩ := b
  refine ⟨?_, ?_, ?_, ?_⟩
  · rintro bd rfl rfl
    simp [compareSortKeys]
  · rintro ad rfl rfl
    simp [compareSortKeys]
  · rintro ⟨ay, amo, ad⟩ ⟨yy, ymo, yd⟩ rfl rfl
    simp only [compareSortKeys, compareStartTimes, dateLexLt, startLexLt, DateOnly.mk.injEq]
    constructor <;> (constructor) <;> (intro h) <;>
      (first | (split_ifs at h <;> omega) | (split_ifs <;> omega))
  · rintro rfl rfl
    simp only [compareSortKeys, compareStartTimes, startLexLt]
    constructor <;> (constructor) <;> (intro h) <;>
      (first | (split_ifs at h <;> omega) | (split_ifs <;> omega))

/-- C1 witness: the date-absent key of 06:19:01 orders strictly before the
dated key of 11:22:56. -/
theorem C1_witness :
    compareSortKeys ⟨none, 6, 19, 1⟩ ⟨some ⟨2025, 1, 27⟩, 11, 22, 56⟩ < 0 :=
  (C1_amended_thm ⟨none, 6, 19, 1⟩ ⟨some ⟨2025, 1, 27⟩, 11, 22, 56⟩).1 ⟨2025, 1, 27⟩ rfl rfl

/-- C2 counterexample: merging two nested segments with the explicit output
path equal to the first input overwrites that file with only the other
source's content; the pre-existing content "old\n" occurs zero times in the
final output, not exactly once. -/
theorem C2_counterexample :
    executeMerge expandSelf ⟨[samplePathEarly, samplePathLate], some samplePathEarly, false⟩
        [(samplePathEarly, ("old\n").data), (samplePathLate, ("late segment\n").data)]
      = (.ok ⟨[samplePathLate], samplePathEarly⟩,
          [(samplePathEarly, ("late segment\n").data)])
    ∧ countOccur (("old\n").data) (("late segment\n").data) = 0 := by
  decide

/-- C2 (amended): for every successful merge, the returned source list
excludes the (canonical) output path entirely — the output file is read zero
times, not once, and is skipped by the deletion pass — and the final content
of the output file is exactly the concatenation of the returned sources as
read from the pre-merge filesystem; a pre-existing file at the output path
does not contribute to the merged output. -/
theorem C2_amended_thm (expand : JsStr → List JsStr) (request : MergeRequest) (fs : FS)
    (outcome : MergeOutcome) (fs' : FS)
    (h : executeMerge expand request fs = (.ok outcome, fs')) :
    (∀ p ∈ outcome.files, p ≠ outcome.outputPath)
      ∧ ∃ merged, buildMerged fs outcome.files [] = .ok merged
          ∧ fsLookup fs' outcome.outputPath = some merged := by
  unfold executeMerge at h
  split at h
  · simp at h
  split at h
  · simp at h
  split at h
  · simp at h
  rename_i collected hcoll u hsz descriptors hkeys
  split at h
  · dsimp only at h
    split at h
    · simp at h
    split at h
    · simp at h
    rename_i x1 outputPath hout x2 fs1 hw
    injection h with ho hfs
    injection ho with ho
    subst ho
    subst hfs
    constructor
    · intro p hp
      exact mem_filter_ne_out fs _ outputPath p hp
    · exact write_gives_content fs fs1 _ outputPath hw
  · dsimp only at h
    split at h
    · simp at h
    split at h
    · simp at h
    rename_i x1 outputPath hout x2 fs1 hw
    split at h
    · simp at h
    rename_i x3 fs2 hdel
    injection h with ho hfs
    injection ho with ho
    subst ho
    subst hfs
    constructor
    · intro p hp
      exact mem_filter_ne_out fs _ outputPath p hp
    · obtain ⟨merged, hb, hlook⟩ := write_gives_content fs fs1 _ outputPath hw
      refine ⟨merged, hb, ?_⟩
      rw [delete_keeps_out fs1 fs2 _ outputPath hdel]
      exact hlook

/-- C2 witness: in the concrete self-referential merge the returned sources
exclude the output path and the final output content is the concatenation of
the one remaining source. -/
theorem C2_witness :
    (∀ p ∈ [samplePathLate], p ≠ samplePathEarly)
      ∧ ∃ merged, buildMerged
          [(samplePathEarly, ("old\n").data), (samplePathLate, ("late segment\n").data)]
          [samplePathLate] [] = .ok merged
        ∧ fsLookup [(samplePathEarly, ("late segment\n").data)] samplePathEarly
            = some merged :=
  C2_amended_thm expandSelf ⟨[samplePathEarly, samplePathLate], some samplePathEarly, false⟩
    [(samplePathEarly, ("old\n").data), (samplePathLate, ("late segment\n").data)]
    ⟨[samplePathLate], samplePathEarly⟩
    [(samplePathEarly, ("late segment\n").data)] (by decide)

/-- C3 counterexample: an input ending in two newlines is adjusted to a body
also ending in two newlines, refuting "the returned body ends with exactly
one `\n`" for inputs that end with a newline. -/
theorem C3_counterexample :
    adjustTranscript (("00:00:01 Foo\n\n").data) sampleBase sampleDate
        = .ok ⟨("18:01:13 Foo\n\n").data, ⟨2024, 12, 25, 18, 1, 13⟩,
            ⟨2024, 12, 25, 18, 1, 13⟩, false⟩
      ∧ trailingNlCount (("18:01:13 Foo\n\n").data) = 2
      ∧ endsWithNl (("00:00:01 Foo\n\n").data) := by
  decide

/-- C3 (amended): `adjustTranscript` preserves the exact number of trailing
newlines of its input — in particular trailing-newline presence is preserved,
and an input ending in exactly one `\n` yields a body ending in exactly one
`\n`; but an input ending in k ≥ 2 newlines yields a body ending in k
newlines, not one. -/
theorem C3_amended_thm (contents : JsStr) (bt : Time) (d : DateOnly) (u : TranscriptUpdate)
    (h : adjustTranscript contents bt d = .ok u) :
    trailingNlCount u.body = trailingNlCount contents
      ∧ (endsWithNl u.body ↔ endsWithNl contents) := by
  obtain ⟨hbody, -, -, -⟩ := adjustTranscript_ok_inv contents bt d u h
  have hlines_nl : ∀ l ∈ effectiveLines contents, '\n' ∉ l := effectiveLines_no_nl contents
  have hproc_nl : ∀ l ∈ (effectiveLines contents).map (procLine bt d), '\n' ∉ l := by
    intro l hl
    obtain ⟨x, hx, rfl⟩ := List.mem_map.1 hl
    exact procLine_no_nl bt d x (hlines_nl x hx)
  have hforall : List.Forall₂ (fun x y => x = [] ↔ y = [])
      (effectiveLines contents) ((effectiveLines contents).map (procLine bt d)) := by
    rw [List.forall₂_map_right_iff, List.forall₂_same]
    intro x _
    exact (procLine_empty_iff bt d x).symm
  have hcong := trailing_joinNl_congr (effectiveLines contents)
    ((effectiveLines contents).map (procLine bt d)) hforall hlines_nl hproc_nl
  have hcount : trailingNlCount u.body = trailingNlCount contents := by
    by_cases hE : endsWithNl contents
    · rw [hbody, if_pos hE, trailing_append_nl, ← hcong]
      conv_rhs => rw [endsWithNl_decomp contents hE]
      rw [trailing_append_nl]
      rw [effectiveLines_of_endsWith contents hE, joinNl_splitOnNl]
    · rw [hbody, if_neg hE, ← hcong]
      rw [effectiveLines_of_not_endsWith contents hE, joinNl_splitOnNl]
  refine ⟨hcount, ?_⟩
  rw [endsWithNl_iff_trailing_pos, endsWithNl_iff_trailing_pos, hcount]

/-- C3 witness: adjusting an input ending in exactly one newline yields a body
with the same trailing-newline count and the same trailing-newline presence. -/
theorem C3_witness :
    trailingNlCount (("18:01:13 Foo\n").data) = trailingNlCount (("00:00:01 Foo\n").data)
      ∧ (endsWithNl (("18:01:13 Foo\n").data) ↔ endsWithNl (("00:00:01 Foo\n").data)) :=
  C3_amended_thm (("00:00:01 Foo\n").data) sampleBase sampleDate
    ⟨("18:01:13 Foo\n").data, ⟨2024, 12, 25, 18, 1, 13⟩, ⟨2024, 12, 25, 18, 1, 13⟩, false⟩
    (by decide)

/-- C4: `parseTime` succeeds exactly on strings of the shape `hh:mm:ss` with
two-digit fields in range (hours 0-23, minutes and seconds 0-59), and on
every successful parse `formatTime` reproduces the input string exactly
(round trip is the identity); every string violating the punctuation/length
shape or a field range parses to `none`. -/
theorem C4_thm (s : JsStr) :
    ((parseTime s).isSome ↔ isValidTimeString s)
      ∧ ∀ t, parseTime s = some t → formatTime t = s := by
  rcases s with _ | ⟨h1, _ | ⟨h2, _ | ⟨c1, _ | ⟨m1, _ | ⟨m2, _ | ⟨c2, _ | ⟨s1, _ | ⟨s2, _ | ⟨c9, rest⟩⟩⟩⟩⟩⟩⟩⟩⟩ <;>
    first
  | (constructor
     · simp [parseTime, isValidTimeString]
     · intro t ht; simp [parseTime] at ht)
  | skip
  simp only [parseTime, isValidTimeString]
  by_cases hg : isDigit h1 ∧ isDigit h2 ∧ c1 = ':' ∧ isDigit m1 ∧ isDigit m2 ∧ c2 = ':'
      ∧ isDigit s1 ∧ isDigit s2
  · rw [if_pos hg]
    by_cases hr : 10 * digitVal h1 + digitVal h2 > 23 ∨ 10 * digitVal m1 + digitVal m2 > 59
        ∨ 10 * digitVal s1 + digitVal s2 > 59
    · rw [if_pos hr]
      constructor
      · simp only [Option.isSome_none, Bool.false_eq_true, false_iff]
        intro hv
        obtain ⟨-, -, -, -, -, -, -, -, hh, hm, hs⟩ := hv
        omega
      · intro t ht; simp at ht
    · rw [if_neg hr]
      constructor
      · simp only [Option.isSome_some, true_iff]
        push_neg at hr
        obtain ⟨d1, d2, e1, d3, d4, e2, d5, d6⟩ := hg
        exact ⟨d1, d2, e1, d3, d4, e2, d5, d6, by omega, by omega, by omega⟩
      · intro t ht
        obtain ⟨d1, d2, e1, d3, d4, e2, d5, d6⟩ := hg
        injection ht with ht
        subst ht e1 e2
        show formatTime _ = _
        unfold formatTime
        simp only
        rw [pad2_digits _ _ (digitVal_le_nine h1 d1) (digitVal_le_nine h2 d2)]
        rw [pad2_digits _ _ (digitVal_le_nine m1 d3) (digitVal_le_nine m2 d4)]
        rw [pad2_digits _ _ (digitVal_le_nine s1 d5) (digitVal_le_nine s2 d6)]
        rw [digitToChar_digitVal h1 d1, digitToChar_digitVal h2 d2,
          digitToChar_digitVal m1 d3, digitToChar_digitVal m2 d4,
          digitToChar_digitVal s1 d5, digitToChar_digitVal s2 d6]
        rfl
  · rw [if_neg hg]
    constructor
    · simp only [Option.isSome_none, Bool.false_eq_true, false_iff]
      intro hv
      obtain ⟨d1, d2, e1, d3, d4, e2, d5, d6, -, -, -⟩ := hv
      exact hg ⟨d1, d2, e1, d3, d4, e2, d5, d6⟩
    · intro t ht; simp at ht

/-- C4 witness: "18:01:12" parses, is a valid time string, and formatting the
parsed value reproduces it. -/
theorem C4_witness :
    formatTime ⟨18, 1, 12⟩ = ("18:01:12").data ∧ isValidTimeString (("18:01:12").data) :=
  ⟨(C4_thm (("18:01:12").data)).2 ⟨18, 1, 12⟩ (by decide), by decide⟩

/-- C5: `applyOffset` adds the base time's and the relative time's seconds,
splits off whole days as `floor(total / 86400)`, maps the remainder back to
in-range hours / minutes / seconds, and advances the date by `addDays` only
when the overflow is positive (e.g. base 23:30:00 on 2024-12-25 plus offset
01:00:00 rolls into 2024-12-26 00:30:00). -/
theorem C5_thm (start relative : Time) (effectiveDate : DateOnly) :
    applyOffset start effectiveDate relative =
      createDateTime
        (if 0 < (timeToSeconds start + timeToSeconds relative) / 86400
          then addDays effectiveDate ((timeToSeconds start + timeToSeconds relative) / 86400)
          else effectiveDate)
        (secondsToTimeWithOverflow (timeToSeconds start + timeToSeconds relative)).1
    ∧ timeToSeconds (secondsToTimeWithOverflow (timeToSeconds start + timeToSeconds relative)).1
        + 86400 * ((timeToSeconds start + timeToSeconds relative) / 86400)
      = timeToSeconds start + timeToSeconds relative
    ∧ (applyOffset start effectiveDate relative).hours ≤ 23
    ∧ (applyOffset start effectiveDate relative).minutes ≤ 59
    ∧ (applyOffset start effectiveDate relative).seconds ≤ 59
    ∧ applyOffset ⟨23, 30, 0⟩ ⟨2024, 12, 25⟩ ⟨1, 0, 0⟩ = ⟨2024, 12, 26, 0, 30, 0⟩ := by
  obtain ⟨eh, em, es⟩ := applyOffset_fields start relative effectiveDate
  refine ⟨rfl, ?_, ?_, ?_, ?_, by decide⟩
  · simp only [secondsToTimeWithOverflow, timeToSeconds]
    omega
  · rw [eh]; omega
  · rw [em]; omega
  · rw [es]; omega

/-- C6: `adjustTranscript` fails with `NoTimestamps` exactly when no line of
the input carries a recognizable leading timestamp (at least 8 characters
whose first 8 parse as a valid in-range HH:MM:SS); when some line parses, it
returns an update whose `firstTimestamp` is the first adjusted datetime and
whose `lastTimestamp` is the last adjusted datetime in file order. -/
theorem C6_thm (contents : JsStr) (bt : Time) (d : DateOnly) :
    (adjustTranscript contents bt d = .error .noTimestamps
      ↔ ∀ l ∈ splitOnNl contents, parseTimestampLine l = none)
    ∧ ∀ u, adjustTranscript contents bt d = .ok u →
        (adjustedSeq bt d contents).head? = some u.firstTimestamp
          ∧ (adjustedSeq bt d contents).getLast? = some u.lastTimestamp := by
  constructor
  · have herr : adjustTranscript contents bt d = .error .noTimestamps
        ↔ adjustedSeq bt d contents = [] := by
      unfold adjustTranscript
      cases hf : (finalSt bt d contents).first with
      | none =>
        have hseq : adjustedSeq bt d contents = [] := by
          rw [← List.head?_eq_none_iff, ← finalSt_first]
          exact hf
        simp [hseq]
      | some f =>
        have hne : adjustedSeq bt d contents ≠ [] := by
          intro hnil
          rw [finalSt_first, hnil] at hf
          cases hf
        simp [hne]
    rw [herr]
    have hseq : adjustedSeq bt d contents = [] ↔
        ∀ l ∈ effectiveLines contents, parseTimestampLine l = none := by
      unfold adjustedSeq seqOf
      rw [List.filterMap_eq_nil_iff]
      constructor
      · intro h l hl
        have hml := h l hl
        cases hp : parseTimestampLine l with
        | none => rfl
        | some pr => rw [hp] at hml; cases hml
      · intro h l hl
        rw [h l hl]
        rfl
    rw [hseq]
    by_cases hE : endsWithNl contents
    · rw [effectiveLines_of_endsWith contents hE]
      have hsplit : splitOnNl contents = splitOnNl contents.dropLast ++ [[]] := by
        conv_lhs => rw [endsWithNl_decomp contents hE]
        exact splitOnChar_append_sep '\n' contents.dropLast
      rw [hsplit]
      constructor
      · intro h l hl
        rcases List.mem_append.1 hl with hl | hl
        · exact h l hl
        · rcases List.mem_singleton.1 hl with rfl
          exact parseTimestampLine_nil
      · intro h l hl
        exact h l (List.mem_append.2 (Or.inl hl))
    · rw [effectiveLines_of_not_endsWith contents hE]
  · intro u h
    obtain ⟨-, h1, h2, -⟩ := adjustTranscript_ok_inv contents bt d u h
    exact ⟨h1, h2⟩

/-- C6 witness: an input with two timestamp lines yields first adjusted
datetime 18:01:13 and last adjusted datetime 18:01:17. -/
theorem C6_witness :
    (adjustedSeq sampleBase sampleDate (("00:00:01 A\n00:00:05 B\n").data)).head?
        = some ⟨2024, 12, 25, 18, 1, 13⟩
      ∧ (adjustedSeq sampleBase sampleDate (("00:00:01 A\n00:00:05 B\n").data)).getLast?
        = some ⟨2024, 12, 25, 18, 1, 17⟩ :=
  (C6_thm (("00:00:01 A\n00:00:05 B\n").data) sampleBase sampleDate).2
    ⟨("18:01:13 A\n18:01:17 B\n").data, ⟨2024, 12, 25, 18, 1, 13⟩,
      ⟨2024, 12, 25, 18, 1, 17⟩, false⟩ (by decide)

/-- C7: `hasOutOfOrderTimestamps` is true exactly when some newly adjusted
datetime compares strictly less than the immediately previously adjusted one
(an adjacent strict decrease in the adjusted sequence); equal or increasing
neighbours never set it, and once a decrease occurs the flag is true in the
final result. -/
theorem C7_thm (contents : JsStr) (bt : Time) (d : DateOnly) (u : TranscriptUpdate)
    (h : adjustTranscript contents bt d = .ok u) :
    u.hasOutOfOrderTimestamps = hasAdjacentDecrease (adjustedSeq bt d contents) :=
  (adjustTranscript_ok_inv contents bt d u h).2.2.2

/-- C7 witness: the decreasing pair 00:00:05, 00:00:02 sets the flag. -/
theorem C7_witness :
    (true : Bool)
      = hasAdjacentDecrease
          (adjustedSeq sampleBase sampleDate (("00:00:05 L\n00:00:02 E\n").data)) :=
  C7_thm (("00:00:05 L\n00:00:02 E\n").data) sampleBase sampleDate
    ⟨("18:01:17 L\n18:01:14 E\n").data, ⟨2024, 12, 25, 18, 1, 17⟩,
      ⟨2024, 12, 25, 18, 1, 14⟩, true⟩ (by decide)

/-- C8: `determineOutputPath` resolves in priority order: an explicit output
is used verbatim; else when every file's directory-derived day info agrees on
the same parent directory and calendar date the output is that directory plus
`<YYYY-MM-DD>.txt`; else when every dated key agrees on one date the output
is the directory of the first file in sorted order plus `<YYYY-MM-DD>.txt`;
dated keys that disagree fail with `MixedDates`; no dated key at all fails
with `UndeterminedDate`. -/
theorem C8_thm (ordered : List JsStr) (descs : List (JsStr × FileSortKey))
    (req : Option JsStr) :
    (∀ o, req = some o → determineOutputPath ordered descs req = .ok o)
    ∧ (∀ info : NestedDirInfo, req = none → ordered ≠ [] →
        (∀ p ∈ ordered, extractNestedDayDirectory p = some info) →
        determineOutputPath ordered descs req
          = .ok (pathJoin info.dir (formatDateDashed info.date ++ txtExt)))
    ∧ (∀ d0 ds, req = none → detectCommonNestedDirectory ordered = none →
        descs.filterMap (fun pk => pk.2.date) = d0 :: ds → (∀ d ∈ ds, d = d0) →
        determineOutputPath ordered descs req
          = .ok (pathJoin (firstDirOf ordered) (formatDateDashed d0 ++ txtExt)))
    ∧ (∀ d0 ds d, req = none → detectCommonNestedDirectory ordered = none →
        descs.filterMap (fun pk => pk.2.date) = d0 :: ds → d ∈ ds → d ≠ d0 →
        determineOutputPath ordered descs req = .error .mixedDates)
    ∧ (req = none → detectCommonNestedDirectory ordered = none →
        descs.filterMap (fun pk => pk.2.date) = [] →
        determineOutputPath ordered descs req = .error .undeterminedDate) := by
  refine ⟨?_, ?_, ?_, ?_, ?_⟩
  · rintro o rfl
    rfl
  · rintro info rfl hne hall
    have hdet : detectCommonNestedDirectory ordered = some info :=
      (detectCommon_some_iff ordered info).2 ⟨hne, hall⟩
    unfold determineOutputPath
    rw [hdet]
  · rintro d0 ds rfl hdet hfm hall
    unfold determineOutputPath
    rw [hdet, pickCommonDate_none_cons descs d0 ds hfm hall]
  · rintro d0 ds d rfl hdet hfm hd hne
    unfold determineOutputPath
    rw [hdet, pickCommonDate_none_err descs d0 ds hfm d hd hne]
  · rintro rfl hdet hfm
    unfold determineOutputPath
    rw [hdet, pickCommonDate_none_nil_dates descs hfm]

/-- C8 witness: two segments under the shared day directory 2025/01/27 infer
the output path 2025/01/27/2025-01-27.txt. -/
theorem C8_witness :
    determineOutputPath [samplePathEarly, samplePathLate] [] none
      = .ok (pathJoin (("2025/01/27").data) (formatDateDashed ⟨2025, 1, 27⟩ ++ txtExt)) :=
  (C8_thm [samplePathEarly, samplePathLate] [] none).2.1
    ⟨("2025/01/27").data, ⟨2025, 1, 27⟩⟩ rfl (by decide) (by decide)

/-- C9 counterexample: the name 112256-999999.txt has its end-time field
numerically out of range — `parseTimeDigits` itself rejects "999999" — yet
`getSortKey` never parses that field (`parseNested` reads only `parts[0]`,
`parseFlat` only `parts[0]` and `parts[1]`), returns a valid key, and a full
`executeMerge` run on the file SUCCEEDS: the output file is written and the
source deleted, refuting "a numeric field out of range makes executeMerge
fail with UnrecognizedFilename". -/
theorem C9_counterexample :
    parseTimeDigits ((splitOnChar '-' (stripExt (pathBasename samplePathBadEnd))).getD 1 [])
        = none
      ∧ getSortKey samplePathBadEnd = .ok ⟨some ⟨2025, 1, 27⟩, 11, 22, 56⟩
      ∧ executeMerge expandSelf ⟨[samplePathBadEnd], none, false⟩
          [(samplePathBadEnd, ("segment\n").data)]
        = (.ok ⟨[samplePathBadEnd], ("2025/01/27/2025-01-27.txt").data⟩,
            [(("2025/01/27/2025-01-27.txt").data, ("segment\n").data)]) := by
  decide

/-- C9 (amended): when the collected files expand and pass the size check but
some candidate's name is unrecognizable — it matches neither digit shape, or
it matches one but its START-time field is out of range (the only field the
code range-checks; end-time fields are shape-checked only) — `executeMerge`
fails with `UnrecognizedFilename` naming an offending collected path, and the
filesystem is returned unchanged: no output file written, no source
deleted. -/
theorem C9_amended_thm (expand : JsStr → List JsStr) (request : MergeRequest) (fs : FS)
    (collected : List JsStr) (p : JsStr)
    (h1 : expandPatterns expand request.patterns = .ok collected)
    (h2 : checkSizes fs collected = .ok ())
    (hp : p ∈ collected) (hbad : unrecognizableName p) :
    ∃ q ∈ collected, unrecognizableName q
      ∧ executeMerge expand request fs = (.error (.unrecognizedFilename q), fs) := by
  have hbad' : getSortKey p = .error (.unrecognizedFilename p) :=
    (getSortKey_error_iff p).2 hbad
  obtain ⟨q, hq, hq2, hq3⟩ := extractKeys_error_of_bad collected p hp _ hbad'
  refine ⟨q, hq, (getSortKey_error_iff q).1 hq2, ?_⟩
  unfold executeMerge
  rw [h1]
  show (match checkSizes fs collected with
    | .error e => (Except.error e, fs)
    | .ok _ => _) = _
  rw [h2]
  show (match extractKeys collected with
    | .error e => (Except.error e, fs)
    | .ok descriptors => _) = _
  rw [hq3]

/-- C9 witness: a directory holding one recognizable nested file and
notes.txt (which matches neither shape) fails the merge with
`UnrecognizedFilename` and leaves the filesystem exactly as it was. -/
theorem C9_witness :
    ∃ q ∈ [samplePathLate, samplePathNotes], unrecognizableName q
      ∧ executeMerge expandSelf ⟨[samplePathLate, samplePathNotes], none, false⟩
          [(samplePathLate, ("valid\n").data), (samplePathNotes, ("invalid\n").data)]
        = (.error (.unrecognizedFilename q),
            [(samplePathLate, ("valid\n").data), (samplePathNotes, ("invalid\n").data)]) :=
  C9_amended_thm expandSelf ⟨[samplePathLate, samplePathNotes], none, false⟩
    [(samplePathLate, ("valid\n").data), (samplePathNotes, ("invalid\n").data)]
    [samplePathLate, samplePathNotes] samplePathNotes
    (by decide) (by decide) (by decide) (by decide)

/-- C10 counterexample: two occurrences of the same path separated by a
distinct path with an equal sort key survive the stable sort in that order,
so the consecutive-duplicate collapse removes nothing and `executeMerge`
(with deletion off, explicit output) returns a files list containing the path
twice — refuting global at-most-once occurrence. -/
theorem C10_counterexample :
    executeMerge expandSelf ⟨[samplePathX, samplePathY, samplePathX], some sampleOut, true⟩
        [(samplePathX, ("A\n").data), (samplePathY, ("B\n").data)]
      = (.ok ⟨[samplePathX, samplePathY, samplePathX], sampleOut⟩,
          [(samplePathX, ("A\n").data), (samplePathY, ("B\n").data),
            (sampleOut, ("A\nB\nA\n").data)])
    ∧ List.count samplePathX [samplePathX, samplePathY, samplePathX] = 2 := by
  decide

/-- C10 (amended): the deduplication pass of `executeMerge` collapses exactly
consecutive duplicates — its result has no two adjacent equal paths and is a
sublist of its input with the same members; a path may still occur more than
once globally when a distinct path with an equal sort key separates its
occurrences, and such a list can be returned as `files`. -/
theorem C10_amended_thm (l : List JsStr) :
    List.Chain' (fun a b => a ≠ b) (dedupConsecutive l)
      ∧ List.Sublist (dedupConsecutive l) l
      ∧ ∀ q, q ∈ dedupConsecutive l ↔ q ∈ l := by
  cases l with
  | nil => simp [dedupConsecutive]
  | cons p rest =>
    refine ⟨dedupAux_chain p rest, List.Sublist.cons₂ p (dedupAux_sublist p rest), fun q => ?_⟩
    constructor
    · intro hq
      exact (List.Sublist.cons₂ p (dedupAux_sublist p rest)).subset hq
    · intro hq
      rcases List.mem_cons.1 hq with rfl | hq'
      · exact List.mem_cons_self _ _
      · exact mem_dedupAux p q rest hq'
